import Mathlib

/-!
Shallow embedding of the skip-list set from `src/skiplist/SkipListSet.hpp`
(class `SkipListSet` together with `SkipListKey` and the level-tester
interface), and proofs about the claims on that component.

Embedding conventions, used consistently below:

* `SkipListKey` drops the element payload of the two sentinel keys.  The C++
  class stores a default-constructed placeholder inside sentinel keys, but
  `operator==` and `operator<` never inspect it (they only look at the `kind`
  tag unless both keys are `Normal`), so the payload of a sentinel is
  unobservable and the payload-free datatype is an exact model of the key
  algebra.
* Heap nodes (`struct Node`) are modelled as records carrying a unique
  allocation identifier `id : Nat`; the `next` pointer of a node is
  represented by adjacency inside its level's node list, and the `below`
  pointer by `below : Option Nat` naming the id of the node one level down.
  Dereferencing a `below` pointer is modelled by locating that id in the next
  level's list; the invariant proved for all reachable states shows ids are
  globally unique and every stored `below` id occurs in the level directly
  beneath, so this lookup coincides with the pointer dereference.
* The `LNode` chain hanging off `head` is modelled as `List (Level α)`
  ordered top level first, exactly like the `below` chain of `LNode`s.
  A null `head` (which only arises in moved-from objects) is modelled by the
  `head` field being `none`.
* The level tester (`SkipListLevelTester`) is modelled by the list of answers
  its `shouldOccupyNextLevel` calls return during one `add` call: the while
  loop consumes the list and stops at the first `false` or when the list is
  exhausted (an empty remainder stands for an answer of `false`).
* Undefined behaviour (dereferencing a null `Node*` or null `LNode*`) is
  modelled by the operation returning `none`; a C++ exception thrown by a
  failing allocation is modelled by `Except.error` carrying the state the
  object was left in when the exception escaped.  Allocation failure is
  injected by an oracle `failAt : Option Nat` naming the index (in program
  order) of the `new` expression that throws.
-/

namespace SkipListModel

/-- Kind tag of a key, mirroring `enum class SkipListKind`; the `normal`
constructor carries the element that the C++ `SkipListKey` stores next to the
tag (sentinel payloads are unobservable and therefore dropped). -/
inductive SkipListKey (α : Type) where
  | negInf : SkipListKey α
  | normal : α → SkipListKey α
  | posInf : SkipListKey α
deriving DecidableEq, Repr

variable {α : Type} [LinearOrder α]

/-- Translation of `SkipListKey::operator==`: tags must match, and for two
`Normal` keys the elements must also be equal. -/
def keyEq : SkipListKey α → SkipListKey α → Bool
  | .negInf, .negInf => true
  | .posInf, .posInf => true
  | .normal a, .normal b => decide (a = b)
  | _, _ => false

/-- Translation of `SkipListKey::operator<`: `NegInf` is below everything but
itself, `PosInf` is below nothing, and two `Normal` keys compare by the
element order; a `Normal` key is below `PosInf`. -/
def keyLt : SkipListKey α → SkipListKey α → Bool
  | .negInf, other => !(keyEq (α := α) .negInf other)
  | .posInf, _ => false
  | .normal _, .posInf => true
  | .normal a, .normal b => decide (a < b)
  | .normal _, .negInf => false

theorem keyEq_iff_eq {k₁ k₂ : SkipListKey α} : keyEq k₁ k₂ = true ↔ k₁ = k₂ := by
  cases k₁ <;> cases k₂ <;> simp [keyEq]

theorem keyEq_refl (k : SkipListKey α) : keyEq k k = true := keyEq_iff_eq.mpr rfl

theorem keyLt_irrefl (k : SkipListKey α) : keyLt k k = false := by
  cases k <;> simp [keyLt, keyEq]

theorem keyLt_trans {k₁ k₂ k₃ : SkipListKey α} (h₁ : keyLt k₁ k₂ = true)
    (h₂ : keyLt k₂ k₃ = true) : keyLt k₁ k₃ = true := by
  cases k₁ <;> cases k₂ <;> cases k₃ <;>
    simp_all [keyLt, keyEq] <;> exact lt_trans h₁ h₂

theorem keyLt_asymm {k₁ k₂ : SkipListKey α} (h : keyLt k₁ k₂ = true) :
    keyLt k₂ k₁ = false := by
  cases k₁ <;> cases k₂ <;> simp_all [keyLt, keyEq] <;> exact le_of_lt h

theorem keyEq_false_of_lt {k₁ k₂ : SkipListKey α} (h : keyLt k₁ k₂ = true) :
    keyEq k₁ k₂ = false := by
  cases k₁ <;> cases k₂ <;> simp_all [keyLt, keyEq] <;> exact ne_of_lt h

theorem keyLt_trichotomy (k₁ k₂ : SkipListKey α) :
    keyLt k₁ k₂ = true ∨ k₁ = k₂ ∨ keyLt k₂ k₁ = true := by
  cases k₁ <;> cases k₂ <;> simp [keyLt, keyEq] <;>
    exact lt_trichotomy _ _

theorem keyLt_negInf_normal (e : α) : keyLt (.negInf) (.normal e) = true := by
  simp [keyLt, keyEq]

theorem keyLt_normal_posInf (e : α) : keyLt (.normal e) (.posInf) = true := rfl

theorem keyLt_posInf_false (k : SkipListKey α) : keyLt (.posInf) k = false := rfl

/-- Heap node of the grid, mirroring `struct Node`.  `id` is the allocation
identifier standing for the node's address, `value` is the key stored behind
the `value` pointer, and `below` holds the id of the node the `below` pointer
aims at (or `none` for a null `below`).  The `next` pointer is represented by
adjacency in the containing level's node list. -/
structure Node (α : Type) where
  id : Nat
  value : SkipListKey α
  below : Option Nat
deriving DecidableEq, Repr

/-- One `LNode` of the level chain: `value` is the level number and `nodes`
is the singly linked key chain hanging off its `next` pointer, in chain
order. -/
structure Level (α : Type) where
  value : Nat
  nodes : List (Node α)
deriving DecidableEq, Repr

/-- State of a `SkipListSet` object.  `head` is the chain of levels from the
top level downwards (`none` models a null `head` pointer, which occurs only
in moved-from objects); `tail` is the id stored in the `tail` member;
`elements` is the `int elements` counter; `fresh` is the allocator state: all
node ids handed out so far are below it. -/
structure SkipListSet (α : Type) where
  head : Option (List (Level α))
  tail : Option Nat
  elements : Int
  fresh : Nat
deriving DecidableEq, Repr

/-- Value of `head->value` given the level chain behind a non-null `head`
(the chain of a live object is never empty: the constructor creates one
`LNode` and levels are only ever added). -/
def headValue (g : List (Level α)) : Nat :=
  match g with
  | [] => 0
  | top :: _ => top.value

/-- Translation of `updateTail`: walk the top level's node chain and point
`tail` at its last node; if the chain is empty the loop body never runs and
`tail` is left unchanged. -/
def updateTail (s : SkipListSet α) : SkipListSet α :=
  match s.head with
  | some (top :: _) =>
      match top.nodes.getLast? with
      | some n => { s with tail := some n.id }
      | none => s
  | _ => s

/-- State built by the `SkipListSet` constructor: a single level numbered 0
holding the two sentinels (ids 0 and 1), `tail` pointing at the `PosInf`
sentinel, and an element count of 0. -/
def mkSkipListSet : SkipListSet α :=
  { head := some [⟨0, [⟨0, .negInf, none⟩, ⟨1, .posInf, none⟩]⟩],
    tail := some 1,
    elements := 0,
    fresh := 2 }

/-- Outcome of one run of the `search` loop, before it is collapsed to the
single `Node*` return value: `foundNull` is the `return nullptr` taken when a
key compares equal, `exitNull` is a null result produced by the loop running
off a null pointer (a null `below`, or stepping past the end of a chain), and
`pred i` is `return current` with the predecessor node `i`. -/
inductive SearchResult where
  | foundNull : SearchResult
  | exitNull : SearchResult
  | pred : Nat → SearchResult
deriving DecidableEq, Repr

/-- Outcome of scanning one level horizontally: either the loop ends with a
`SearchResult`, or it reaches the node from which it descends (`p =
p->below`). -/
inductive ScanOut (α : Type) where
  | res : SearchResult → ScanOut α
  | descend : Node α → ScanOut α
deriving DecidableEq, Repr

/-- Horizontal part of the `search` loop (lines 523-544): starting from the
suffix `p` of the current level's chain, return on an equal key (`return
nullptr`), return the predecessor once the neighbour's key is larger and the
level counter has reached `minLevel`, advance right while the neighbour's key
is not larger, and otherwise report the node at which the loop descends. -/
def scanRight (key : SkipListKey α) (minLevel : Int) (level : Int) :
    List (Node α) → ScanOut α
  | [] => .res .exitNull
  | n :: rest =>
    if keyEq n.value key then .res .foundNull
    else
      match rest with
      | nxt :: tl =>
        if keyLt key nxt.value then
          if level - 1 < minLevel then .res (.pred n.id)
          else .descend n
        else scanRight key minLevel level (nxt :: tl)
      | [] => .res .exitNull

/-- Vertical part of the `search` loop: scan the current level; on a descent
follow the node's `below` id into the next level down (a null `below` makes
the loop exit with a null `p`).  Under the reachable-state invariant the ids
are globally unique and the stored id occurs in the level directly beneath,
so locating it there is exactly the pointer dereference `p = p->below`. -/
def searchGo (key : SkipListKey α) (minLevel : Int) :
    List (Level α) → List (Node α) → Int → SearchResult
  | [], p, level =>
      (match scanRight key minLevel level p with
       | .res r => r
       | .descend _ => .exitNull)
  | l :: ls, p, level =>
      (match scanRight key minLevel level p with
       | .res r => r
       | .descend n =>
          match n.below with
          | none => .exitNull
          | some bid =>
              searchGo key minLevel ls
                (l.nodes.dropWhile (fun nd => nd.id != bid)) (level - 1))

/-- Entry of `search(element, minLevel)` on a non-null `head`: start at the
top level's first node with the level counter at `head->value`. -/
def searchRes (g : List (Level α)) (e : α) (minLevel : Int) : SearchResult :=
  match g with
  | [] => .exitNull
  | top :: lower => searchGo (.normal e) minLevel lower top.nodes (top.value : Int)

/-- The `Node*` value `search` actually returns: `none` for the null pointer
(produced both on success and when the loop exits with a null `p`), `some i`
for the predecessor node. -/
def search (g : List (Level α)) (e : α) (minLevel : Int) : Option Nat :=
  match searchRes g e minLevel with
  | .pred i => some i
  | _ => none

/-- Translation of `contains` on a non-null grid: true iff `search(element,
0)` returned the null pointer. -/
def containsG (g : List (Level α)) (e : α) : Bool :=
  (search g e 0).isNone

/-- Public `contains`; on a moved-from object (`head` null) the search
dereferences `head->next`, which is undefined behaviour, modelled as
`none`. -/
def contains (s : SkipListSet α) (e : α) : Option Bool :=
  s.head.map (fun g => containsG g e)

/-- Public `size()`: returns the `elements` counter (converted to `unsigned
int`; the counter is never negative in any reachable state, where the
conversion is the identity). -/
def size (s : SkipListSet α) : Int :=
  s.elements

/-- Translation of `levelCount` on a non-null grid: `head->value + 1`. -/
def levelCountG (g : List (Level α)) : Nat :=
  headValue g + 1

/-- Public `levelCount`. -/
def levelCount (s : SkipListSet α) : Option Nat :=
  s.head.map levelCountG

/-- Translation of `getLevel`: walk the level chain and return the first
level whose number matches. -/
def getLevel (g : List (Level α)) (level : Nat) : Option (Level α) :=
  g.find? (fun lv => lv.value == level)

/-- Translation of `elementsOnLevel` on a non-null grid: 0 for a missing
level, otherwise the node count of the level minus the two sentinels (the
`int` counter is returned; in every reachable state it is nonnegative). -/
def elementsOnLevelG (g : List (Level α)) (level : Nat) : Int :=
  match getLevel g level with
  | none => 0
  | some lv => (lv.nodes.length : Int) - 2

/-- Public `elementsOnLevel`. -/
def elementsOnLevel (s : SkipListSet α) (level : Nat) : Option Int :=
  s.head.map (fun g => elementsOnLevelG g level)

/-- Translation of `isElementOnLevel` on a non-null grid: false for a missing
level, otherwise whether some node's key equals the `Normal` key built from
the element. -/
def isElementOnLevelG (g : List (Level α)) (e : α) (level : Nat) : Bool :=
  match getLevel g level with
  | none => false
  | some lv => lv.nodes.any (fun n => keyEq (.normal e) n.value)

/-- Public `isElementOnLevel`. -/
def isElementOnLevel (s : SkipListSet α) (e : α) (level : Nat) : Option Bool :=
  s.head.map (fun g => isElementOnLevelG g e level)

/-- Splice a freshly allocated node right after the node with id `pid`
inside one node chain (`current->next = new Node(..., current->next)`).
If the id does not occur the chain is unchanged. -/
def insertAfterNode (pid : Nat) (nd : Node α) : List (Node α) → List (Node α)
  | [] => []
  | n :: rest =>
      if n.id == pid then n :: nd :: rest
      else n :: insertAfterNode pid nd rest

/-- Splice a node after the node with id `pid` wherever that node lives in
the grid; with globally unique ids exactly one chain is affected, matching
the pointer update through the `Node*` returned by `search`. -/
def insertAfterId (g : List (Level α)) (pid : Nat) (nd : Node α) :
    List (Level α) :=
  g.map (fun lv => { lv with nodes := insertAfterNode pid nd lv.nodes })

/-- Translation of `createNewLevel` (lines 680-691): push a new top `LNode`
numbered one higher; its chain is `NegInf -> element -> PosInf` where the new
`NegInf` sits above the old top's first node (`head->below->next`), the new
element node sits above `current`, and the new `PosInf` sits above the node
`tail` points at; finally `updateTail` repoints `tail`.  The three nodes take
ids `fresh`, `fresh+1`, `fresh+2` in allocation order. -/
def createNewLevel (s : SkipListSet α) (e : α) (tempId : Option Nat) :
    SkipListSet α :=
  match s.head with
  | none => s
  | some g =>
      let belowNeg : Option Nat :=
        match g with
        | [] => none
        | top :: _ => top.nodes.head?.map (·.id)
      let newLevel : Level α :=
        ⟨headValue g + 1,
          [⟨s.fresh, .negInf, belowNeg⟩,
           ⟨s.fresh + 1, .normal e, tempId⟩,
           ⟨s.fresh + 2, .posInf, s.tail⟩]⟩
      updateTail { s with head := some (newLevel :: g), fresh := s.fresh + 3 }

/-- Id of `head->next->next` (the second node of the top level), the value
`add` reloads into `temp` after growing a level; a missing second node would
leave a null pointer in `temp`. -/
def secondTopId (s : SkipListSet α) : Option Nat :=
  match s.head with
  | some (top :: _) => (top.nodes.drop 1).head?.map (·.id)
  | _ => none

/-- Promotion loop of `add` (lines 423-437).  `tempId` is the `temp` pointer
(the node spliced in at the level beneath), `currentLevel` the loop counter,
and the `List Bool` the remaining answers of the level tester.  A `search`
that returns the null pointer would make `insertNewNode` dereference null
(`n->next`), modelled as `none`. -/
def promoteLoop (e : α) (s : SkipListSet α) (tempId : Option Nat)
    (currentLevel : Int) : List Bool → Option (SkipListSet α)
  | [] => some s
  | false :: _ => some s
  | true :: flips =>
      let cl := currentLevel + 1
      match s.head with
      | none => none
      | some g =>
          if cl > (headValue g : Int) then
            let s' := createNewLevel s e tempId
            promoteLoop e s' (secondTopId s') cl flips
          else
            match search g e cl with
            | none => none
            | some nid =>
                let s' := { s with
                  head := some (insertAfterId g nid ⟨s.fresh, .normal e, tempId⟩),
                  fresh := s.fresh + 1 }
                promoteLoop e s' (some s.fresh) cl flips

/-- Translation of `add` (lines 404-438).  `search(element, 0)` returns the
null pointer whenever the element is already present, and `add` immediately
dereferences it (`current->next`), which is undefined behaviour, modelled as
`none`; otherwise the new level-0 node is spliced after the returned
predecessor, `elements` is incremented, and the promotion loop runs on the
level tester's answers. -/
def add (s : SkipListSet α) (e : α) (flips : List Bool) :
    Option (SkipListSet α) :=
  match s.head with
  | none => none
  | some g =>
      match search g e 0 with
      | none => none
      | some pid =>
          let s1 : SkipListSet α :=
            { head := some (insertAfterId g pid ⟨s.fresh, .normal e, none⟩),
              tail := s.tail,
              elements := s.elements + 1,
              fresh := s.fresh + 1 }
          promoteLoop e s1 (some s.fresh) 0 flips

/-- Run a sequence of `add` calls from a given state; each trace entry pairs
the element with the level tester's answers during that call. -/
def runFrom (s : SkipListSet α) : List (α × List Bool) → Option (SkipListSet α)
  | [] => some s
  | (e, flips) :: rest =>
      match add s e flips with
      | none => none
      | some s' => runFrom s' rest

/-- Run a sequence of `add` calls on a newly constructed set. -/
def runTrace (t : List (α × List Bool)) : Option (SkipListSet α) :=
  runFrom mkSkipListSet t

/-- Move constructor (lines 334-345): the new object takes over `head`,
`tail` and the element count (the level tester is cloned, which is not part
of the modelled state); the source's `head` and `tail` are set to null but
its `elements` counter is left untouched.  Returns (new object, source after
the move). -/
def moveCtor (s : SkipListSet α) : SkipListSet α × SkipListSet α :=
  ({ head := s.head, tail := s.tail, elements := s.elements, fresh := s.fresh },
   { head := none, tail := none, elements := s.elements, fresh := s.fresh })

/-- Move assignment (lines 378-394): the target takes the source's grid and
element count; the source receives the target's old grid (so that it is
destroyed with the source) while its own element count is not written.
Returns (target after, source after). -/
def moveAssign (t s : SkipListSet α) : SkipListSet α × SkipListSet α :=
  ({ head := s.head, tail := s.tail, elements := s.elements, fresh := s.fresh },
   { head := t.head, tail := t.tail, elements := s.elements, fresh := t.fresh })

/-- The `linkLevels` loop (lines 551-590): one `LNode` allocation per source
level, top-down; the copied chain records the level numbers.  `fail?` names
the index (in program order) of the allocation that throws; the catch blocks
delete the partial chain, so an error carries nothing. -/
def linkLevelsA (fail? : Option Nat) :
    Nat → List (Level α) → Except Unit (List Nat × Nat)
  | cnt, [] => .ok ([], cnt)
  | cnt, lv :: rest =>
      if fail? = some cnt then .error ()
      else
        match linkLevelsA fail? (cnt + 1) rest with
        | .error u => .error u
        | .ok (ns, c) => .ok (lv.value :: ns, c)

/-- Inner loop of `linkNext` (lines 604-636) for one level: each copied node
costs two allocations (`new SkipListKey`, `new Node`); the copies carry the
source keys, consecutive fresh ids from `fr`, and null `below` pointers. -/
def linkNodesA (fail? : Option Nat) :
    Nat → Nat → List (Node α) → Except Unit (List (Node α) × Nat × Nat)
  | cnt, fr, [] => .ok ([], cnt, fr)
  | cnt, fr, n :: rest =>
      if fail? = some cnt ∨ fail? = some (cnt + 1) then .error ()
      else
        match linkNodesA fail? (cnt + 2) (fr + 1) rest with
        | .error u => .error u
        | .ok (ns, c, f) => .ok (⟨fr, n.value, none⟩ :: ns, c, f)

/-- The `linkNext` loop over all levels, top-down, returning the copied node
chain of each level. -/
def linkNextA (fail? : Option Nat) :
    Nat → Nat → List (Level α) → Except Unit (List (List (Node α)) × Nat × Nat)
  | cnt, fr, [] => .ok ([], cnt, fr)
  | cnt, fr, p :: ps =>
      match linkNodesA fail? cnt fr p.nodes with
      | .error u => .error u
      | .ok (ns, c, f) =>
          match linkNextA fail? c f ps with
          | .error u => .error u
          | .ok (nss, c2, f2) => .ok (ns :: nss, c2, f2)

/-- Two-pointer matching loop of `linkBelow` (lines 649-663) for one pair of
adjacent levels: walk the lower chain, and whenever the key equals the
current upper node's key, point the upper node's `below` at it and advance
the upper pointer.  If the upper pointer runs out while lower nodes remain,
the next key comparison dereferences a null pointer: undefined behaviour,
modelled as `none`.  Upper nodes never matched keep their null `below`. -/
def linkBelowGo : List (Node α) → List (Node α) → Option (List (Node α))
  | curr, [] => some curr
  | [], _ :: _ => none
  | c :: cs, p :: ps =>
      if keyEq c.value p.value then
        (linkBelowGo cs ps).map (fun r => { c with below := some p.id } :: r)
      else linkBelowGo (c :: cs) ps

/-- The `linkBelow` loop over the level chain, linking each level onto the
level directly beneath it; a null chain head would be dereferenced by
`current->below`, so an empty chain is undefined behaviour. -/
def linkBelowAll : List (Level α) → Option (List (Level α))
  | [] => none
  | [a] => some [a]
  | a :: b :: rest =>
      match linkBelowGo a.nodes b.nodes with
      | none => none
      | some ns =>
          (linkBelowAll (b :: rest)).map
            (fun ls => (⟨a.value, ns⟩ : Level α) :: ls)

/-- Grid-copy pipeline shared by the copy constructor and copy assignment:
`linkLevels`, then `linkNext`, then `linkBelow`.  The outer `none` is
undefined behaviour inside `linkBelow`; `Except.error` is an allocation
failure escaping after the partial copy was deleted; on success the finished
grid is returned together with the number of node ids consumed. -/
def copyGridA (g : List (Level α)) (fail? : Option Nat) :
    Option (Except Unit (List (Level α) × Nat)) :=
  match linkLevelsA fail? 0 g with
  | .error _ => some (.error ())
  | .ok (nums, cnt) =>
      match linkNextA fail? cnt 0 g with
      | .error _ => some (.error ())
      | .ok (nss, _, fr) =>
          match linkBelowAll
              (List.zipWith (fun v ns => (⟨v, ns⟩ : Level α)) nums nss) with
          | none => none
          | some ls => some (.ok (ls, fr))

/-- Copy constructor (lines 313-331): build the new grid from the source; on
allocation failure the partial copy is torn down and the exception leaves
the constructor, so no object is produced.  Copying a moved-from object
(null `head`) reaches `linkBelow`'s null dereference.  The `tail` member is
uninitialised until `updateTail` runs (modelled as `none`). -/
def copyCtorA (s : SkipListSet α) (fail? : Option Nat) :
    Option (Except Unit (SkipListSet α)) :=
  match s.head with
  | none => none
  | some g =>
      match copyGridA g fail? with
      | none => none
      | some (.error u) => some (.error u)
      | some (.ok (ls, fr)) =>
          some (.ok (updateTail
            { head := some ls, tail := none, elements := s.elements, fresh := fr }))

/-- Copy constructor without an injected allocation failure. -/
def copyS (s : SkipListSet α) : Option (SkipListSet α) :=
  match copyCtorA s none with
  | some (.ok x) => some x
  | _ => none

/-- Copy assignment (lines 348-375): the replacement grid is built into the
local `temp` before `deleteSkipList(head)` runs, so an allocation failure
deletes only the partial `temp` and rethrows with the target untouched
(`Except.error` carries the target).  On success the old grid is deleted and
replaced, `updateTail` runs, and the element count is copied. -/
def assignA (t s : SkipListSet α) (fail? : Option Nat) :
    Option (Except (SkipListSet α) (SkipListSet α)) :=
  match s.head with
  | none => none
  | some g =>
      match copyGridA g fail? with
      | none => none
      | some (.error _) => some (.error t)
      | some (.ok (ls, fr)) =>
          some (.ok (updateTail
            { head := some ls, tail := t.tail, elements := s.elements, fresh := fr }))

/-- Specification helper, not source code: the node list `linkNext` produces
for one level — source keys, consecutive ids from `fr`, null belows. -/
def renumber (fr : Nat) : List (Node α) → List (Node α)
  | [] => []
  | n :: rest => ⟨fr, n.value, none⟩ :: renumber (fr + 1) rest

/-- Specification helper: the per-level node lists `linkNext` produces for a
whole grid, threading the id counter. -/
def renumberAll (fr : Nat) : List (Level α) → List (List (Node α)) × Nat
  | [] => ([], fr)
  | p :: ps =>
      let ns := renumber fr p.nodes
      let rest := renumberAll (fr + p.nodes.length) ps
      (ns :: rest.1, rest.2)

/-- Specification helper: the level chain `linkLevels` and `linkNext`
together produce before `linkBelow` runs — source level numbers over
renumbered node chains, threading the id counter level by level. -/
def copyLevels (fr : Nat) : List (Level α) → List (Level α)
  | [] => []
  | p :: ps =>
      (⟨p.value, renumber fr p.nodes⟩ : Level α)
        :: copyLevels (fr + p.nodes.length) ps

/-- Total node count of a grid. -/
def totalNodes (g : List (Level α)) : Nat :=
  (g.map (·.nodes.length)).sum

/-- Allocation-instrumented promotion loop of `add`.  `cnt` is the index of
the next allocation.  `createNewLevel` allocates the `LNode` (1), then key
and node for each of its three nodes (2 each); the partial states after each
committed assignment are spelled out: a thrown allocation leaves them in
place because nothing in the loop catches.  `insertNewNode` allocates key
and node (2) before `n->next` is reassigned, so a failure there leaves the
current state. -/
def promoteLoopA (e : α) (fail? : Option Nat) (s : SkipListSet α)
    (tempId : Option Nat) (currentLevel : Int) (cnt : Nat) :
    List Bool → Option (Except (SkipListSet α) (SkipListSet α))
  | [] => some (.ok s)
  | false :: _ => some (.ok s)
  | true :: flips =>
      let cl := currentLevel + 1
      match s.head with
      | none => none
      | some g =>
          if cl > (headValue g : Int) then
            if fail? = some cnt then some (.error s)
            else if fail? = some (cnt + 1) ∨ fail? = some (cnt + 2) then
              some (.error { s with
                head := some ((⟨headValue g + 1, []⟩ : Level α) :: g) })
            else if fail? = some (cnt + 3) ∨ fail? = some (cnt + 4) then
              some (.error { s with
                head := some ((⟨headValue g + 1,
                  [⟨s.fresh, .negInf,
                    (match g with
                     | [] => none
                     | top :: _ => top.nodes.head?.map (·.id))⟩]⟩ : Level α) :: g),
                fresh := s.fresh + 1 })
            else if fail? = some (cnt + 5) ∨ fail? = some (cnt + 6) then
              some (.error { s with
                head := some ((⟨headValue g + 1,
                  [⟨s.fresh, .negInf,
                    (match g with
                     | [] => none
                     | top :: _ => top.nodes.head?.map (·.id))⟩,
                   ⟨s.fresh + 1, .normal e, tempId⟩]⟩ : Level α) :: g),
                fresh := s.fresh + 2 })
            else
              let s' := createNewLevel s e tempId
              promoteLoopA e fail? s' (secondTopId s') cl (cnt + 7) flips
          else
            match search g e cl with
            | none => none
            | some nid =>
                if fail? = some cnt ∨ fail? = some (cnt + 1) then
                  some (.error s)
                else
                  promoteLoopA e fail?
                    { s with
                      head := some (insertAfterId g nid ⟨s.fresh, .normal e, tempId⟩)
                      fresh := s.fresh + 1 }
                    (some s.fresh) cl (cnt + 2) flips

/-- Allocation-instrumented `add`: the level-0 splice costs allocations 0
(the key) and 1 (the node); a failure in either is caught by `add`'s only
try/catch, which deletes the dangling `temp` and rethrows with the structure
unchanged; then the promotion loop runs uninstrumented by any catch. -/
def addA (s : SkipListSet α) (e : α) (flips : List Bool) (fail? : Option Nat) :
    Option (Except (SkipListSet α) (SkipListSet α)) :=
  match s.head with
  | none => none
  | some g =>
      match search g e 0 with
      | none => none
      | some pid =>
          if fail? = some 0 ∨ fail? = some 1 then some (.error s)
          else
            promoteLoopA e fail?
              { head := some (insertAfterId g pid ⟨s.fresh, .normal e, none⟩),
                tail := s.tail,
                elements := s.elements + 1,
                fresh := s.fresh + 1 }
              (some s.fresh) 0 2 flips

/-- Concrete example state on `Int`: the result of adding 5 to a fresh set
with no promotion. -/
def exOne : SkipListSet Int :=
  ⟨some [⟨0, [⟨0, .negInf, none⟩, ⟨2, .normal 5, none⟩, ⟨1, .posInf, none⟩]⟩],
    some 1, 1, 3⟩

/-- Concrete example state on `Int`: the result of adding 7 to a fresh set
with no promotion. -/
def exSeven : SkipListSet Int :=
  ⟨some [⟨0, [⟨0, .negInf, none⟩, ⟨2, .normal 7, none⟩, ⟨1, .posInf, none⟩]⟩],
    some 1, 1, 3⟩

/-- Concrete example state on `Int`: the result of adding 5, 1, 3 to a fresh
set where the level tester answers true exactly once per element (the spec's
scenario B). -/
def exThree : SkipListSet Int :=
  ⟨some
    [⟨1, [⟨3, .negInf, some 0⟩, ⟨7, .normal 1, some 6⟩, ⟨9, .normal 3, some 8⟩,
          ⟨4, .normal 5, some 2⟩, ⟨5, .posInf, some 1⟩]⟩,
     ⟨0, [⟨0, .negInf, none⟩, ⟨6, .normal 1, none⟩, ⟨8, .normal 3, none⟩,
          ⟨2, .normal 5, none⟩, ⟨1, .posInf, none⟩]⟩],
    some 5, 3, 10⟩

/-- Keys of a node chain, in chain order. -/
def keysOf (ns : List (Node α)) : List (SkipListKey α) :=
  ns.map (·.value)

/-- Ids of a node chain, in chain order. -/
def idsOf (ns : List (Node α)) : List Nat :=
  ns.map (·.id)

/-- All node ids of a grid, top level first. -/
def allIds (g : List (Level α)) : List Nat :=
  (g.map (fun lv => idsOf lv.nodes)).flatten

/-- Adjacent-pair chain condition, an executable counterpart of
`List.Chain'`. -/
def chainP {β : Type} (R : β → β → Prop) : List β → Prop
  | [] => True
  | [_] => True
  | a :: b :: rest => R a b ∧ chainP R (b :: rest)

/-- Strict key order between two nodes. -/
def nodeLt (a b : Node α) : Prop :=
  keyLt a.value b.value = true

/-- Well-formed node chain of one level: it starts at a `NegInf` sentinel,
ends at a `PosInf` sentinel, its keys are strictly increasing left to right,
and its node ids are pairwise distinct. -/
def wfNodes (ns : List (Node α)) : Prop :=
  ns.head?.map (·.value) = some (.negInf) ∧
  ns.getLast?.map (·.value) = some (.posInf) ∧
  chainP nodeLt ns ∧
  (idsOf ns).Nodup

/-- Tower relation between the chain of a level and the chain of the level
directly beneath it: every node's `below` pointer carries the id of a node of
the lower chain holding an equal key. -/
def towered (upper lower : List (Node α)) : Prop :=
  ∀ n ∈ upper, ∃ m ∈ lower, n.below = some m.id ∧ keyEq n.value m.value = true

/-- The level numbers count down to 0 along the chain: the chain below a
level numbered `k` has exactly `k` levels. -/
def wfNums (g : List (Level α)) : Prop :=
  g.map (·.value) = (List.range g.length).reverse

/-- Structural invariant of a live grid (a non-null `head`). -/
def gridWF (g : List (Level α)) : Prop :=
  g ≠ [] ∧ wfNums g ∧ (∀ lv ∈ g, wfNodes lv.nodes) ∧
  chainP (fun a b => towered a.nodes b.nodes) g ∧
  (allIds g).Nodup

/-- Node chain of the level numbered `m` (empty if the level is missing). -/
def nodesAt (g : List (Level α)) (m : Nat) : List (Node α) :=
  ((getLevel g m).map (·.nodes)).getD []

/-- Elements stored in a node chain: the payloads of its `Normal` keys. -/
def normalsOf (ns : List (Node α)) : List α :=
  ns.filterMap (fun n =>
    match n.value with
    | .normal a => some a
    | _ => none)

/-- The node `updateTail` would point `tail` at: the last node of the top
level's chain. -/
def tailTarget (g : List (Level α)) : Option Nat :=
  match g with
  | [] => none
  | top :: _ => top.nodes.getLast?.map (·.id)

/-- Full state invariant of a live `SkipListSet`: the grid is well formed,
all handed-out ids are below the allocator mark, `elements` counts the
`Normal` nodes of level 0, and `tail` points at the last node of the top
level. -/
def Inv (s : SkipListSet α) : Prop :=
  ∃ g, s.head = some g ∧ gridWF g ∧ (∀ i ∈ allIds g, i < s.fresh) ∧
    s.elements = ((normalsOf (nodesAt g 0)).length : Int) ∧
    s.tail = tailTarget g

/-- Observable shape of a grid: level numbers with the key sequence of each
level, which is exactly what the copy routines must reproduce. -/
def shape (g : List (Level α)) : List (Nat × List (SkipListKey α)) :=
  g.map (fun lv => (lv.value, keysOf lv.nodes))

/-- Specification helper: the state the copy pipeline builds from a source
state `s` whose grid is `g`, once the copied level chain `ls` is in place and
`updateTail` has run. -/
def copiedState (s : SkipListSet α) (g ls : List (Level α)) : SkipListSet α :=
  { head := some ls
    tail := tailTarget ls
    elements := s.elements
    fresh := totalNodes g }

/-- Node chain of level 0 of a state (empty for a null `head`). -/
def levelZeroNodes (s : SkipListSet α) : List (Node α) :=
  match s.head with
  | some g => nodesAt g 0
  | none => []

/-- Invariant maintained at the head of `add`'s promotion loop: the state
invariant holds, `currentLevel` (here `i`) names an existing level, `temp`
(here `tid`) points at the node for the inserted element at level `i`, and
the element occurs nowhere above level `i`. -/
def promoteInv (e : α) (s : SkipListSet α) (tid : Option Nat) (i : Nat) : Prop :=
  ∃ g, s.head = some g ∧ gridWF g ∧ (∀ id ∈ allIds g, id < s.fresh) ∧
    s.elements = ((normalsOf (nodesAt g 0)).length : Int) ∧
    s.tail = tailTarget g ∧
    i < g.length ∧
    (∃ nd ∈ nodesAt g i, tid = some nd.id ∧ nd.value = SkipListKey.normal e) ∧
    (∀ j, i < j → SkipListKey.normal e ∉ keysOf (nodesAt g j))

def chainPDecidable {β : Type} (R : β → β → Prop) [DecidableRel R] :
    (l : List β) → Decidable (chainP R l)
  | [] => .isTrue trivial
  | [_] => .isTrue trivial
  | a :: b :: rest =>
      haveI := chainPDecidable R (b :: rest)
      inferInstanceAs (Decidable (R a b ∧ chainP R (b :: rest)))

instance {β : Type} (R : β → β → Prop) [DecidableRel R] (l : List β) :
    Decidable (chainP R l) :=
  chainPDecidable R l

instance (upper lower : List (Node α)) : Decidable (towered upper lower) :=
  inferInstanceAs (Decidable
    (∀ n ∈ upper, ∃ m ∈ lower, n.below = some m.id ∧ keyEq n.value m.value = true))

def exceptDecEq {ε β : Type} [DecidableEq ε] [DecidableEq β] :
    (a b : Except ε β) → Decidable (a = b)
  | .error x, .error y =>
      match decEq x y with
      | isTrue h => isTrue (h ▸ rfl)
      | isFalse h => isFalse (fun hc => h (by injection hc))
  | .error _, .ok _ => isFalse (fun hc => Except.noConfusion hc)
  | .ok _, .error _ => isFalse (fun hc => Except.noConfusion hc)
  | .ok x, .ok y =>
      match decEq x y with
      | isTrue h => isTrue (h ▸ rfl)
      | isFalse h => isFalse (fun hc => h (by injection hc))

instance {ε β : Type} [DecidableEq ε] [DecidableEq β] :
    DecidableEq (Except ε β) :=
  exceptDecEq

instance (a b : Node α) : Decidable (nodeLt a b) :=
  inferInstanceAs (Decidable (keyLt a.value b.value = true))

instance (ns : List (Node α)) : Decidable (wfNodes ns) :=
  inferInstanceAs (Decidable
    (ns.head?.map (·.value) = some (.negInf) ∧
     ns.getLast?.map (·.value) = some (.posInf) ∧
     chainP nodeLt ns ∧
     (idsOf ns).Nodup))

instance (g : List (Level α)) : Decidable (wfNums g) :=
  inferInstanceAs (Decidable (g.map (·.value) = (List.range g.length).reverse))

instance (g : List (Level α)) : Decidable (gridWF g) :=
  inferInstanceAs (Decidable
    (g ≠ [] ∧ wfNums g ∧ (∀ lv ∈ g, wfNodes lv.nodes) ∧
     chainP (fun (a b : Level α) => towered a.nodes b.nodes) g ∧
     (allIds g).Nodup))

theorem chainP_iff_chain' {β : Type} {R : β → β → Prop} :
    ∀ {l : List β}, chainP R l ↔ List.Chain' R l
  | [] => by simp [chainP]
  | [a] => by simp [chainP]
  | a :: b :: rest => by
      rw [List.chain'_cons, chainP, chainP_iff_chain']

theorem wfNums_nil : wfNums ([] : List (Level α)) := rfl

theorem range_reverse_succ (n : Nat) :
    (List.range (n + 1)).reverse = n :: (List.range n).reverse := by
  simp [List.range_succ]

theorem wfNums_cons {lv : Level α} {rest : List (Level α)} :
    wfNums (lv :: rest) ↔ lv.value = rest.length ∧ wfNums rest := by
  simp [wfNums, range_reverse_succ]

theorem headValue_eq {top : Level α} {rest : List (Level α)}
    (h : wfNums (top :: rest)) : headValue (top :: rest) = rest.length := by
  simpa [headValue] using (wfNums_cons.mp h).1

theorem chainP_tail {β : Type} {R : β → β → Prop} {a : β} {l : List β}
    (h : chainP R (a :: l)) : chainP R l := by
  cases l with
  | nil => trivial
  | cons b rest => exact h.2

instance : IsTrans (Node α) nodeLt :=
  ⟨fun _ _ _ h₁ h₂ => keyLt_trans h₁ h₂⟩

theorem wfNodes_pairwise {ns : List (Node α)} (h : wfNodes ns) :
    List.Pairwise nodeLt ns :=
  List.chain'_iff_pairwise.mp (chainP_iff_chain'.mp h.2.2.1)

theorem dropWhile_id_of_mem {ns : List (Node α)} {mm : Node α}
    (h : mm ∈ ns) (hnd : (idsOf ns).Nodup) :
    ∃ l₁ l₂, ns = l₁ ++ mm :: l₂ ∧
      ns.dropWhile (fun nd => nd.id != mm.id) = mm :: l₂ := by
  induction ns with
  | nil => cases h
  | cons n rest ih =>
      by_cases hn : n = mm
      · subst hn
        exact ⟨[], rest, rfl, by simp [List.dropWhile_cons]⟩
      · have hmem : mm ∈ rest := by
          rcases List.mem_cons.mp h with h1 | h1
          · exact absurd h1.symm hn
          · exact h1
        have hnd' : (n.id :: idsOf rest).Nodup := by simpa [idsOf] using hnd
        have hid : n.id ≠ mm.id := by
          intro he
          exact (List.nodup_cons.mp hnd').1
            (by rw [he]; exact List.mem_map_of_mem (·.id) hmem)
        obtain ⟨l₁, l₂, hsplit, hdrop⟩ := ih hmem (List.nodup_cons.mp hnd').2
        refine ⟨n :: l₁, l₂, by simp [hsplit], ?_⟩
        simpa [List.dropWhile_cons, hid] using hdrop

theorem key_notMem_of_split {T pre tl : List (Node α)} {hd nxt : Node α}
    {k : SkipListKey α}
    (hsort : List.Pairwise nodeLt T)
    (hsplit : T = pre ++ hd :: nxt :: tl)
    (hpre : ∀ x ∈ pre, keyLt x.value k = true)
    (hhd : keyLt hd.value k = true)
    (hnxt : keyLt k nxt.value = true) :
    k ∉ keysOf T := by
  intro hk
  obtain ⟨x, hxmem, hxval⟩ := List.mem_map.mp hk
  subst hsplit
  rcases List.mem_append.mp hxmem with hx | hx
  · have := hpre x hx
    rw [hxval] at this
    simp [keyLt_irrefl] at this
  · rcases hx with _ | ⟨_, hx⟩
    · rw [hxval] at hhd
      simp [keyLt_irrefl] at hhd
    · rcases hx with _ | ⟨_, hx⟩
      · rw [hxval] at hnxt
        simp [keyLt_irrefl] at hnxt
      · have hlt : nodeLt nxt x := by
          have := List.pairwise_append.mp hsort
          have h2 := this.1
          have h3 := (List.pairwise_cons.mp this.2.1).2
          exact (List.pairwise_cons.mp h3).1 x hx
        have : keyLt k x.value = true := keyLt_trans hnxt hlt
        rw [hxval] at this
        simp [keyLt_irrefl] at this

theorem tower_step {up low : List (Node α)} {k : SkipListKey α}
    (htow : towered up low) (hk : k ∈ keysOf up) : k ∈ keysOf low := by
  obtain ⟨x, hxmem, hxval⟩ := List.mem_map.mp hk
  obtain ⟨mm, hmmem, _, heq⟩ := htow x hxmem
  have : x.value = mm.value := keyEq_iff_eq.mp heq
  exact List.mem_map.mpr ⟨mm, hmmem, by rw [← this, hxval]⟩

theorem getLevel_cons_self {lv : Level α} {rest : List (Level α)} {m : Nat}
    (h : lv.value = m) : getLevel (lv :: rest) m = some lv := by
  simp [getLevel, List.find?_cons, h]

theorem getLevel_cons_ne {lv : Level α} {rest : List (Level α)} {m : Nat}
    (h : lv.value ≠ m) : getLevel (lv :: rest) m = getLevel rest m := by
  simp [getLevel, List.find?_cons, h]

theorem nodesAt_cons_self {lv : Level α} {rest : List (Level α)} {m : Nat}
    (h : lv.value = m) : nodesAt (lv :: rest) m = lv.nodes := by
  simp [nodesAt, getLevel_cons_self h]

theorem nodesAt_cons_ne {lv : Level α} {rest : List (Level α)} {m : Nat}
    (h : lv.value ≠ m) : nodesAt (lv :: rest) m = nodesAt rest m := by
  simp [nodesAt, getLevel_cons_ne h]

theorem tower_down {k : SkipListKey α} {m : Nat} :
    ∀ (lvls : List (Level α)) (cur : Level α),
      chainP (fun a b => towered a.nodes b.nodes) (cur :: lvls) →
      wfNums (cur :: lvls) →
      m ≤ lvls.length →
      k ∈ keysOf cur.nodes →
      k ∈ keysOf (nodesAt (cur :: lvls) m) := by
  intro lvls
  induction lvls with
  | nil =>
      intro cur htow hnum hm hk
      have h0 : cur.value = 0 := by simpa using (wfNums_cons.mp hnum).1
      have hm0 : m = 0 := by simpa using hm
      rwa [nodesAt_cons_self (by omega)]
  | cons l ls ih =>
      intro cur htow hnum hm hk
      have hcv : cur.value = ls.length + 1 := by
        simpa using (wfNums_cons.mp hnum).1
      have hm1 : m ≤ ls.length + 1 := by simpa using hm
      by_cases hcm : cur.value = m
      · rwa [nodesAt_cons_self hcm]
      · rw [nodesAt_cons_ne hcm]
        have hm' : m ≤ ls.length := by omega
        exact ih l (chainP_tail htow) (wfNums_cons.mp hnum).2 hm'
          (tower_step htow.1 hk)

theorem scanRight_spec (k : SkipListKey α) (m level : Int) :
    ∀ (tl pre : List (Node α)) (hd : Node α) (full : List (Node α)),
      full = pre ++ hd :: tl →
      wfNodes full →
      (∀ x ∈ pre, keyLt x.value k = true) →
      keyLt hd.value k = true →
      (k ∈ keysOf full → scanRight k m level (hd :: tl) = .res .foundNull) ∧
      (k ∉ keysOf full → ∃ pre' r nxt tl', full = pre' ++ r :: nxt :: tl' ∧
        (∀ x ∈ pre', keyLt x.value k = true) ∧ keyLt r.value k = true ∧
        keyLt k nxt.value = true ∧
        scanRight k m level (hd :: tl) =
          (if level - 1 < m then .res (.pred r.id) else .descend r)) := by
  intro tl
  induction tl with
  | nil =>
      intro pre hd full hsplit hwf hpre hhd
      exfalso
      have hlast : full.getLast?.map (·.value) = some (.posInf) := hwf.2.1
      have hfull : full.getLast? = some hd := by
        rw [hsplit]
        exact List.getLast?_concat _
      rw [hfull] at hlast
      simp at hlast
      rw [hlast, keyLt_posInf_false] at hhd
      exact Bool.false_ne_true hhd
  | cons nxt tl' ih =>
      intro pre hd full hsplit hwf hpre hhd
      have hne : keyEq hd.value k = false := keyEq_false_of_lt hhd
      by_cases hlt : keyLt k nxt.value = true
      · constructor
        · intro hk
          exact absurd hk
            (key_notMem_of_split (wfNodes_pairwise hwf) hsplit hpre hhd hlt)
        · intro _
          exact ⟨pre, hd, nxt, tl', hsplit, hpre, hhd, hlt,
            by simp [scanRight, hne, hlt]⟩
      · rcases keyLt_trichotomy k nxt.value with h | h | h
        · exact absurd h hlt
        · have heq : keyEq nxt.value k = true := keyEq_iff_eq.mpr h.symm
          constructor
          · intro _
            have hstep : scanRight k m level (hd :: nxt :: tl') =
                scanRight k m level (nxt :: tl') := by
              simp [scanRight, hne, hlt]
            rw [hstep]
            cases tl' <;> simp [scanRight, heq]
          · intro hk
            exfalso
            apply hk
            rw [hsplit]
            exact List.mem_map.mpr ⟨nxt, by simp, h.symm⟩
        · have hpre' : ∀ x ∈ pre ++ [hd], keyLt x.value k = true := by
            intro x hx
            rcases List.mem_append.mp hx with h1 | h1
            · exact hpre x h1
            · simp at h1
              rw [h1]
              exact hhd
          have hrec := ih (pre ++ [hd]) nxt full (by simp [hsplit]) hwf hpre' h
          have hstep : scanRight k m level (hd :: nxt :: tl') =
              scanRight k m level (nxt :: tl') := by
            simp [scanRight, hne, hlt]
          rw [hstep]
          exact hrec

theorem searchGo_res {k : SkipListKey α} {m level : Int} {p : List (Node α)}
    {lvls : List (Level α)} {r : SearchResult}
    (h : scanRight k m level p = .res r) : searchGo k m lvls p level = r := by
  cases lvls <;> simp [searchGo, h]

theorem searchGo_spec (k : SkipListKey α) (m : Nat) :
    ∀ (lvls : List (Level α)) (cur : Level α) (pre : List (Node α))
      (hd : Node α) (tl : List (Node α)),
      (∀ lv ∈ cur :: lvls, wfNodes lv.nodes) →
      chainP (fun a b => towered a.nodes b.nodes) (cur :: lvls) →
      wfNums (cur :: lvls) →
      m ≤ lvls.length →
      cur.nodes = pre ++ hd :: tl →
      (∀ x ∈ pre, keyLt x.value k = true) →
      keyLt hd.value k = true →
      (k ∈ keysOf (nodesAt (cur :: lvls) m) →
        searchGo k (m : Int) lvls (hd :: tl) (cur.value : Int) = .foundNull) ∧
      (k ∉ keysOf (nodesAt (cur :: lvls) m) →
        ∃ preT r nxt tlT, nodesAt (cur :: lvls) m = preT ++ r :: nxt :: tlT ∧
          searchGo k (m : Int) lvls (hd :: tl) (cur.value : Int) = .pred r.id ∧
          keyLt r.value k = true ∧ keyLt k nxt.value = true) := by
  intro lvls
  induction lvls with
  | nil =>
      intro cur pre hd tl hwf htow hnum hm hsplit hpre hhd
      have h0 : cur.value = 0 := by simpa using (wfNums_cons.mp hnum).1
      have hm0 : m = 0 := by simpa using hm
      have hstop : (cur.value : Int) - 1 < (m : Int) := by omega
      have hT : nodesAt (cur :: ([] : List (Level α))) m = cur.nodes :=
        nodesAt_cons_self (by omega)
      have hs := scanRight_spec k (m : Int) (cur.value : Int) tl pre hd cur.nodes
        hsplit (hwf cur (by simp)) hpre hhd
      rw [hT]
      constructor
      · intro hk
        exact searchGo_res (hs.1 hk)
      · intro hk
        obtain ⟨pre', r, nxt, tl', hsp, _, hr, hn, hout⟩ := hs.2 hk
        refine ⟨pre', r, nxt, tl', hsp, ?_, hr, hn⟩
        rw [if_pos hstop] at hout
        exact searchGo_res hout
  | cons l ls ih =>
      intro cur pre hd tl hwf htow hnum hm hsplit hpre hhd
      have hcv : cur.value = ls.length + 1 := by
        simpa using (wfNums_cons.mp hnum).1
      have hm1 : m ≤ ls.length + 1 := by simpa using hm
      have hs := scanRight_spec k (m : Int) (cur.value : Int) tl pre hd cur.nodes
        hsplit (hwf cur (by simp)) hpre hhd
      by_cases hcm : cur.value = m
      · have hstop : (cur.value : Int) - 1 < (m : Int) := by omega
        have hT : nodesAt (cur :: l :: ls) m = cur.nodes := nodesAt_cons_self hcm
        rw [hT]
        constructor
        · intro hk
          exact searchGo_res (hs.1 hk)
        · intro hk
          obtain ⟨pre', r, nxt, tl', hsp, _, hr, hn, hout⟩ := hs.2 hk
          refine ⟨pre', r, nxt, tl', hsp, ?_, hr, hn⟩
          rw [if_pos hstop] at hout
          exact searchGo_res hout
      · have hmlt : m < cur.value := by omega
        have hstop : ¬ ((cur.value : Int) - 1 < (m : Int)) := by omega
        have hT : nodesAt (cur :: l :: ls) m = nodesAt (l :: ls) m :=
          nodesAt_cons_ne hcm
        by_cases hk0 : k ∈ keysOf cur.nodes
        · have hfound : searchGo k (m : Int) (l :: ls) (hd :: tl)
              (cur.value : Int) = .foundNull := searchGo_res (hs.1 hk0)
          have hkT : k ∈ keysOf (nodesAt (cur :: l :: ls) m) :=
            tower_down (l :: ls) cur htow hnum (by simpa using hm) hk0
          constructor
          · intro _
            exact hfound
          · intro hk
            exact absurd hkT hk
        · obtain ⟨pre', r, nxt, tl', hsp, hpre'lt, hr, hn, hout⟩ := hs.2 hk0
          rw [if_neg hstop] at hout
          have hrmem : r ∈ cur.nodes := by
            rw [hsp]
            simp
          obtain ⟨mm, hmmem, hbelow, heqkey⟩ := htow.1 r hrmem
          have hmmval : r.value = mm.value := keyEq_iff_eq.mp heqkey
          have hlwf : wfNodes l.nodes := hwf l (by simp)
          obtain ⟨l₁, l₂, hlsplit, hdrop⟩ :=
            dropWhile_id_of_mem hmmem hlwf.2.2.2
          have hl₁lt : ∀ x ∈ l₁, keyLt x.value k = true := by
            intro x hx
            have hpw := wfNodes_pairwise hlwf
            rw [hlsplit] at hpw
            have hxm : nodeLt x mm :=
              (List.pairwise_append.mp hpw).2.2 x hx mm (by simp)
            have hxr : keyLt x.value r.value = true := by
              rw [nodeLt, ← hmmval] at hxm
              exact hxm
            exact keyLt_trans hxr hr
          have hmmlt : keyLt mm.value k = true := by
            rw [← hmmval]
            exact hr
          have hih := ih l l₁ mm l₂
            (fun lv hlv => hwf lv (List.mem_cons_of_mem _ hlv))
            (chainP_tail htow) (wfNums_cons.mp hnum).2 (by omega)
            hlsplit hl₁lt hmmlt
          have hlval : l.value = ls.length := by
            simpa using (wfNums_cons.mp (wfNums_cons.mp hnum).2).1
          have hcnt : (cur.value : Int) - 1 = (l.value : Int) := by omega
          have hunfold : searchGo k (m : Int) (l :: ls) (hd :: tl)
              (cur.value : Int)
              = searchGo k (m : Int) ls (mm :: l₂) ((cur.value : Int) - 1) := by
            simp [searchGo, hout, hbelow, hdrop]
          rw [hT, hunfold, hcnt]
          exact hih

theorem searchRes_spec {g : List (Level α)} {e : α} {m : Nat}
    (hwf : gridWF g) (hm : m < g.length) :
    ((SkipListKey.normal e) ∈ keysOf (nodesAt g m) →
      searchRes g e (m : Int) = .foundNull) ∧
    ((SkipListKey.normal e) ∉ keysOf (nodesAt g m) →
      ∃ preT r nxt tlT, nodesAt g m = preT ++ r :: nxt :: tlT ∧
        searchRes g e (m : Int) = .pred r.id ∧
        keyLt r.value (.normal e) = true ∧
        keyLt (.normal e) nxt.value = true) := by
  obtain ⟨hne, hnum, hwfl, htow, _⟩ := hwf
  match g, hne with
  | top :: lower, _ =>
    have htopwf : wfNodes top.nodes := hwfl top (by simp)
    match htop : top.nodes, htopwf.1 with
    | hd :: tl, hh =>
      have hhd : hd.value = SkipListKey.negInf := by
        rw [htop] at htopwf
        simpa using htopwf.1
      have hsp := searchGo_spec (SkipListKey.normal e) m lower top [] hd tl
        hwfl htow hnum (by simpa using Nat.lt_succ_iff.mp (by simpa using hm))
        htop (by simp)
        (by rw [hhd]; exact keyLt_negInf_normal e)
      simpa [searchRes, htop] using hsp

theorem search_found {g : List (Level α)} {e : α} {m : Nat}
    (hwf : gridWF g) (hm : m < g.length)
    (hk : (SkipListKey.normal e) ∈ keysOf (nodesAt g m)) :
    search g e (m : Int) = none := by
  have := (searchRes_spec hwf hm).1 hk
  simp [search, this]

theorem search_insertion_point {g : List (Level α)} {e : α} {m : Nat}
    (hwf : gridWF g) (hm : m < g.length)
    (hk : (SkipListKey.normal e) ∉ keysOf (nodesAt g m)) :
    ∃ preT r nxt tlT, nodesAt g m = preT ++ r :: nxt :: tlT ∧
      search g e (m : Int) = some r.id ∧
      keyLt r.value (.normal e) = true ∧
      keyLt (.normal e) nxt.value = true := by
  obtain ⟨preT, r, nxt, tlT, hsp, hres, hr, hn⟩ := (searchRes_spec hwf hm).2 hk
  exact ⟨preT, r, nxt, tlT, hsp, by simp [search, hres], hr, hn⟩

theorem idsOf_append (a b : List (Node α)) :
    idsOf (a ++ b) = idsOf a ++ idsOf b := by
  simp [idsOf]

theorem keysOf_append (a b : List (Node α)) :
    keysOf (a ++ b) = keysOf a ++ keysOf b := by
  simp [keysOf]

theorem allIds_cons (lv : Level α) (g : List (Level α)) :
    allIds (lv :: g) = idsOf lv.nodes ++ allIds g := by
  simp [allIds]

theorem allIds_append (a b : List (Level α)) :
    allIds (a ++ b) = allIds a ++ allIds b := by
  simp [allIds]

theorem mem_allIds_of_mem {g : List (Level α)} {lv : Level α} {i : Nat}
    (hlv : lv ∈ g) (hi : i ∈ idsOf lv.nodes) : i ∈ allIds g := by
  apply List.mem_flatten.mpr
  exact ⟨idsOf lv.nodes, List.mem_map_of_mem _ hlv, hi⟩

theorem insertAfterNode_of_not_mem {pid : Nat} {nd : Node α}
    {ns : List (Node α)} (h : pid ∉ idsOf ns) :
    insertAfterNode pid nd ns = ns := by
  induction ns with
  | nil => rfl
  | cons n rest ih =>
      have hn : n.id ≠ pid := by
        intro he
        exact h (by rw [← he]; simp [idsOf])
      have hrest : pid ∉ idsOf rest := by
        intro hm
        exact h (by simp [idsOf] at hm ⊢; exact Or.inr hm)
      simp [insertAfterNode, hn, ih hrest]

theorem insertAfterNode_split {pre post : List (Node α)} {r nd : Node α}
    (hpre : r.id ∉ idsOf pre) :
    insertAfterNode r.id nd (pre ++ r :: post) = pre ++ r :: nd :: post := by
  induction pre with
  | nil => simp [insertAfterNode]
  | cons a rest ih =>
      have ha : a.id ≠ r.id := by
        intro he
        exact hpre (by rw [← he]; simp [idsOf])
      have hrest : r.id ∉ idsOf rest := by
        intro hm
        exact hpre (by simp [idsOf] at hm ⊢; exact Or.inr hm)
      simp [insertAfterNode, ha, ih hrest]

theorem map_insertAfter_eq_self {pid : Nat} {nd : Node α}
    {G : List (Level α)} (h : ∀ lv ∈ G, pid ∉ idsOf lv.nodes) :
    G.map (fun lv => { lv with nodes := insertAfterNode pid nd lv.nodes }) = G := by
  induction G with
  | nil => rfl
  | cons a rest ih =>
      simp only [List.map_cons]
      rw [insertAfterNode_of_not_mem (h a (by simp)),
        ih (fun lv hlv => h lv (List.mem_cons_of_mem _ hlv))]

theorem insertAfterId_split {g A B : List (Level α)} {j : Level α}
    {pre post : List (Node α)} {r nd : Node α}
    (hg : g = A ++ j :: B)
    (hj : j.nodes = pre ++ r :: post)
    (hnd : (allIds g).Nodup) :
    insertAfterId g r.id nd =
      A ++ (⟨j.value, pre ++ r :: nd :: post⟩ : Level α) :: B := by
  subst hg
  have hrid : r.id ∈ idsOf j.nodes := by
    rw [hj]
    simp [idsOf]
  rw [allIds_append, allIds_cons] at hnd
  have hparts := List.nodup_append.mp hnd
  have hparts2 := List.nodup_append.mp hparts.2.1
  have hA : ∀ lv ∈ A, r.id ∉ idsOf lv.nodes := by
    intro lv hlv hmem
    exact hparts.2.2 (mem_allIds_of_mem hlv hmem)
      (List.mem_append.mpr (Or.inl hrid))
  have hB : ∀ lv ∈ B, r.id ∉ idsOf lv.nodes := by
    intro lv hlv hmem
    exact hparts2.2.2 hrid (mem_allIds_of_mem hlv hmem)
  have hpre : r.id ∉ idsOf pre := by
    intro hmem
    have := hparts2.1
    rw [hj, idsOf_append] at this
    have h2 := (List.nodup_append.mp this).2.2
    exact h2 hmem (by simp [idsOf])
  unfold insertAfterId
  rw [List.map_append, List.map_cons, map_insertAfter_eq_self hA,
    map_insertAfter_eq_self hB, hj, insertAfterNode_split hpre]

theorem pairwise_insert_mid {pre postTl : List (Node α)} {r nxt nd : Node α}
    (hpw : List.Pairwise nodeLt (pre ++ r :: nxt :: postTl))
    (h₁ : nodeLt r nd) (h₂ : nodeLt nd nxt) :
    List.Pairwise nodeLt (pre ++ r :: nd :: nxt :: postTl) := by
  obtain ⟨hA, hmid, hcross⟩ := List.pairwise_append.mp hpw
  obtain ⟨hrrest, hmid2⟩ := List.pairwise_cons.mp hmid
  obtain ⟨hnxtrest, hmid3⟩ := List.pairwise_cons.mp hmid2
  apply List.pairwise_append.mpr
  refine ⟨hA, ?_, ?_⟩
  · apply List.pairwise_cons.mpr
    constructor
    · intro y hy
      rcases List.mem_cons.mp hy with h | hy
      · rw [h]; exact h₁
      · exact hrrest y hy
    · apply List.pairwise_cons.mpr
      constructor
      · intro y hy
        rcases List.mem_cons.mp hy with h | hy
        · rw [h]; exact h₂
        · exact keyLt_trans h₂ (hnxtrest y hy)
      · exact hmid2
  · intro x hx y hy
    rcases List.mem_cons.mp hy with h | hy'
    · rw [h]; exact hcross x hx r (by simp)
    · rcases List.mem_cons.mp hy' with h | hy''
      · rw [h]
        exact keyLt_trans (hcross x hx r (by simp)) h₁
      · exact hcross x hx y (by simp [hy''])

theorem nodup_insert_mid {A B : List Nat} {x : Nat}
    (h : (A ++ B).Nodup) (hx : x ∉ A ++ B) : (A ++ x :: B).Nodup := by
  have hperm : (A ++ x :: B).Perm (x :: (A ++ B)) := List.perm_middle
  exact hperm.nodup_iff.mpr (List.nodup_cons.mpr ⟨hx, h⟩)

theorem head?_insert_mid (pre postTl : List (Node α)) (r nd nxt : Node α) :
    (pre ++ r :: nd :: nxt :: postTl).head? = (pre ++ r :: nxt :: postTl).head? := by
  cases pre <;> simp

theorem getLast?_insert_mid (pre postTl : List (Node α)) (r nd nxt : Node α) :
    (pre ++ r :: nd :: nxt :: postTl).getLast? =
      (pre ++ r :: nxt :: postTl).getLast? := by
  have h₁ : pre ++ r :: nd :: nxt :: postTl
      = (pre ++ [r, nd]) ++ nxt :: postTl := by simp
  have h₂ : pre ++ r :: nxt :: postTl = (pre ++ [r]) ++ nxt :: postTl := by simp
  rw [h₁, h₂, List.getLast?_append_of_ne_nil _ (by simp),
    List.getLast?_append_of_ne_nil _ (by simp)]

theorem wfNodes_insert {pre postTl : List (Node α)} {r nxt nd : Node α}
    (hwf : wfNodes (pre ++ r :: nxt :: postTl))
    (h₁ : nodeLt r nd) (h₂ : nodeLt nd nxt)
    (hid : nd.id ∉ idsOf (pre ++ r :: nxt :: postTl)) :
    wfNodes (pre ++ r :: nd :: nxt :: postTl) := by
  obtain ⟨hh, hl, hc, hn⟩ := hwf
  refine ⟨?_, ?_, ?_, ?_⟩
  · rw [head?_insert_mid]
    exact hh
  · rw [getLast?_insert_mid]
    exact hl
  · apply chainP_iff_chain'.mpr
    apply List.chain'_iff_pairwise.mpr
    exact pairwise_insert_mid
      (List.chain'_iff_pairwise.mp (chainP_iff_chain'.mp hc)) h₁ h₂
  · have he : idsOf (pre ++ r :: nd :: nxt :: postTl)
        = (idsOf pre ++ [r.id]) ++ nd.id :: idsOf (nxt :: postTl) := by
      simp [idsOf]
    have he2 : idsOf (pre ++ r :: nxt :: postTl)
        = (idsOf pre ++ [r.id]) ++ idsOf (nxt :: postTl) := by
      simp [idsOf]
    rw [he]
    apply nodup_insert_mid
    · rw [← he2]; exact hn
    · rw [← he2]; exact hid

theorem towered_mono {up low low' : List (Node α)} (h : towered up low)
    (hsub : ∀ x ∈ low, x ∈ low') : towered up low' := by
  intro n hn
  obtain ⟨mm, hmm, hb, he⟩ := h n hn
  exact ⟨mm, hsub mm hmm, hb, he⟩

theorem towered_insert_up {pre post low : List (Node α)} {r nd : Node α}
    (h : towered (pre ++ r :: post) low)
    (hnd : ∃ mm ∈ low, nd.below = some mm.id ∧ keyEq nd.value mm.value = true) :
    towered (pre ++ r :: nd :: post) low := by
  intro n hn
  rcases List.mem_append.mp hn with hx | hx
  · exact h n (List.mem_append.mpr (Or.inl hx))
  · rcases List.mem_cons.mp hx with h1 | hx'
    · exact h1 ▸ h r (List.mem_append.mpr (Or.inr (by simp)))
    · rcases List.mem_cons.mp hx' with h1 | hx''
      · exact h1 ▸ hnd
      · exact h n (List.mem_append.mpr (Or.inr (List.mem_cons_of_mem _ hx'')))

theorem wfNums_split {A B : List (Level α)} {j : Level α}
    (h : wfNums (A ++ j :: B)) : j.value = B.length ∧ wfNums (j :: B) := by
  induction A with
  | nil => exact ⟨(wfNums_cons.mp h).1, h⟩
  | cons a A ih => exact ih (wfNums_cons.mp h).2

theorem getLevel_split {A B : List (Level α)} {j : Level α}
    (h : wfNums (A ++ j :: B)) :
    getLevel (A ++ j :: B) j.value = some j := by
  induction A with
  | nil => exact getLevel_cons_self rfl
  | cons a A ih =>
      have ha := (wfNums_cons.mp h).1
      simp only [List.append_eq] at ha
      have hj := (wfNums_split (A := A) (wfNums_cons.mp h).2).1
      have hne : a.value ≠ j.value := by
        have hlen : (A ++ j :: B).length = A.length + B.length + 1 := by
          rw [List.length_append, List.length_cons]
          omega
        omega
      rw [List.cons_append, getLevel_cons_ne hne]
      exact ih (wfNums_cons.mp h).2

theorem getLevel_replace_ne {A B : List (Level α)} {j j' : Level α}
    (hv : j'.value = j.value) {m : Nat} (hm : m ≠ j.value) :
    getLevel (A ++ j' :: B) m = getLevel (A ++ j :: B) m := by
  induction A with
  | nil =>
      rw [List.nil_append, List.nil_append, getLevel_cons_ne (by omega),
        getLevel_cons_ne (by omega)]
  | cons a A ih =>
      by_cases ha : a.value = m
      · rw [List.cons_append, List.cons_append, getLevel_cons_self ha,
          getLevel_cons_self ha]
      · rw [List.cons_append, List.cons_append, getLevel_cons_ne ha,
          getLevel_cons_ne ha, ih]

theorem valuesLt_of_wfNums {g : List (Level α)} (h : wfNums g) :
    ∀ lv ∈ g, lv.value < g.length := by
  induction g with
  | nil => intro lv hlv; cases hlv
  | cons a rest ih =>
      intro lv hlv
      rcases List.mem_cons.mp hlv with h1 | h1
      · rw [h1, (wfNums_cons.mp h).1]
        simp
      · have := ih (wfNums_cons.mp h).2 lv h1
        simp
        omega

theorem getLevel_none_of_ge {g : List (Level α)} (h : wfNums g) {j : Nat}
    (hj : g.length ≤ j) : getLevel g j = none := by
  apply List.find?_eq_none.mpr
  intro lv hlv
  have := valuesLt_of_wfNums h lv hlv
  simp only [beq_iff_eq]
  omega

theorem grid_insert_spec {g A B : List (Level α)} {j : Level α}
    {pre postTl : List (Node α)} {r nxt nd : Node α}
    (hg : g = A ++ j :: B)
    (hwf : gridWF g)
    (hj : j.nodes = pre ++ r :: nxt :: postTl)
    (h₁ : nodeLt r nd) (h₂ : nodeLt nd nxt)
    (hfresh : ∀ i ∈ allIds g, i < nd.id)
    (htb : B = [] ∨ ∃ bl B', B = bl :: B' ∧
      ∃ mm ∈ bl.nodes, nd.below = some mm.id ∧ keyEq nd.value mm.value = true) :
    gridWF (A ++ (⟨j.value, pre ++ r :: nd :: nxt :: postTl⟩ : Level α) :: B) ∧
    (allIds (A ++ (⟨j.value, pre ++ r :: nd :: nxt :: postTl⟩ : Level α) :: B)).Perm
      (nd.id :: allIds g) ∧
    (A ++ (⟨j.value, pre ++ r :: nd :: nxt :: postTl⟩ : Level α) :: B).map (·.value)
      = g.map (·.value) ∧
    nodesAt (A ++ (⟨j.value, pre ++ r :: nd :: nxt :: postTl⟩ : Level α) :: B) j.value
      = pre ++ r :: nd :: nxt :: postTl ∧
    (∀ m, m ≠ j.value →
      nodesAt (A ++ (⟨j.value, pre ++ r :: nd :: nxt :: postTl⟩ : Level α) :: B) m
        = nodesAt g m) := by
  subst hg
  obtain ⟨hne, hnum, hwfl, htow, hnd⟩ := hwf
  have hndid : nd.id ∉ allIds (A ++ j :: B) := by
    intro hmem
    exact absurd rfl (Nat.ne_of_lt (hfresh nd.id hmem))
  have hjwf : wfNodes j.nodes := hwfl j (by simp)
  have hmap : (A ++ (⟨j.value, pre ++ r :: nd :: nxt :: postTl⟩ : Level α) :: B).map (·.value)
      = (A ++ j :: B).map (·.value) := by simp
  have hlen : (A ++ (⟨j.value, pre ++ r :: nd :: nxt :: postTl⟩ : Level α) :: B).length
      = (A ++ j :: B).length := by simp
  have hnum' : wfNums (A ++ (⟨j.value, pre ++ r :: nd :: nxt :: postTl⟩ : Level α) :: B) := by
    unfold wfNums at hnum ⊢
    rw [hmap, hlen]
    exact hnum
  have hjwf' : wfNodes (pre ++ r :: nd :: nxt :: postTl) := by
    apply wfNodes_insert (hj ▸ hjwf) h₁ h₂
    intro hmem
    exact hndid (@mem_allIds_of_mem α _ _ j _ (by simp) (by rw [hj]; exact hmem))
  have hwfl' : ∀ lv ∈ A ++ (⟨j.value, pre ++ r :: nd :: nxt :: postTl⟩ : Level α) :: B,
      wfNodes lv.nodes := by
    intro lv hlv
    rcases List.mem_append.mp hlv with h | h
    · exact hwfl lv (by simp [h])
    · rcases List.mem_cons.mp h with h | h
      · rw [h]
        exact hjwf'
      · exact hwfl lv (by simp [h])
  have hsub : ∀ x ∈ j.nodes, x ∈ pre ++ r :: nd :: nxt :: postTl := by
    intro x hx
    rw [hj] at hx
    simp at hx ⊢
    tauto
  have htow' : chainP (fun a b => towered a.nodes b.nodes)
      (A ++ (⟨j.value, pre ++ r :: nd :: nxt :: postTl⟩ : Level α) :: B) := by
    rw [chainP_iff_chain'] at htow ⊢
    obtain ⟨hA, hJB, hlink⟩ := List.chain'_append.mp htow
    obtain ⟨hjB, hB⟩ := List.chain'_cons'.mp hJB
    apply List.chain'_append.mpr
    refine ⟨hA, ?_, ?_⟩
    · apply List.chain'_cons'.mpr
      refine ⟨?_, hB⟩
      intro y hy
      rcases htb with hBe | ⟨bl, B', hBeq, hmm⟩
      · rw [hBe] at hy
        simp at hy
      · subst hBeq
        simp at hy
        subst hy
        exact towered_insert_up (by rw [← hj]; exact hjB bl (by simp)) hmm
    · intro x hx y hy
      simp at hy
      subst hy
      exact towered_mono (hlink x hx j (by simp)) hsub
  have hperm : (allIds (A ++ (⟨j.value, pre ++ r :: nd :: nxt :: postTl⟩ : Level α) :: B)).Perm
      (nd.id :: allIds (A ++ j :: B)) := by
    have e1 : allIds (A ++ (⟨j.value, pre ++ r :: nd :: nxt :: postTl⟩ : Level α) :: B)
        = (allIds A ++ (idsOf pre ++ [r.id])) ++
          nd.id :: (idsOf (nxt :: postTl) ++ allIds B) := by
      rw [allIds_append, allIds_cons]
      simp [idsOf]
    have e2 : nd.id :: allIds (A ++ j :: B)
        = nd.id :: ((allIds A ++ (idsOf pre ++ [r.id])) ++
          (idsOf (nxt :: postTl) ++ allIds B)) := by
      rw [allIds_append, allIds_cons, hj]
      simp [idsOf]
    rw [e1, e2]
    exact List.perm_middle
  have hAt : nodesAt (A ++ (⟨j.value, pre ++ r :: nd :: nxt :: postTl⟩ : Level α) :: B) j.value
      = pre ++ r :: nd :: nxt :: postTl := by
    have hgl := getLevel_split (A := A) (B := B)
      (j := (⟨j.value, pre ++ r :: nd :: nxt :: postTl⟩ : Level α)) hnum'
    simp only [nodesAt, hgl]
    rfl
  refine ⟨⟨by simp, hnum', hwfl', htow', hperm.nodup_iff.mpr (List.nodup_cons.mpr ⟨hndid, hnd⟩)⟩,
    hperm, hmap, hAt, ?_⟩
  intro m hm
  unfold nodesAt
  rw [@getLevel_replace_ne α _ A B j
    (⟨j.value, pre ++ r :: nd :: nxt :: postTl⟩ : Level α) rfl m hm]

theorem mem_of_getLast?_eq_some {β : Type} {l : List β} {a : β}
    (h : l.getLast? = some a) : a ∈ l := by
  obtain ⟨hne, heq⟩ := List.mem_getLast?_eq_getLast
    (show a ∈ l.getLast? from by rw [Option.mem_def]; exact h)
  rw [heq]
  exact List.getLast_mem hne

theorem getLevel_eq_some_split {g : List (Level α)} {m : Nat} {j : Level α}
    (h : getLevel g m = some j) :
    (∃ A B, g = A ++ j :: B) ∧ j.value = m := by
  constructor
  · exact List.append_of_mem (List.mem_of_find?_eq_some h)
  · simpa using List.find?_some h

theorem promoteInv_inv {e : α} {s : SkipListSet α} {tid : Option Nat} {i : Nat}
    (h : promoteInv e s tid i) : Inv s := by
  obtain ⟨g, h1, h2, h3, h4, h5, _⟩ := h
  exact ⟨g, h1, h2, h3, h4, h5⟩

theorem promote_step_create {e : α} {s : SkipListSet α} {tid : Option Nat}
    {i : Nat} {g : List (Level α)}
    (hP : promoteInv e s tid i) (hg : s.head = some g)
    (hi : i = headValue g) :
    promoteInv e (createNewLevel s e tid)
      (secondTopId (createNewLevel s e tid)) (i + 1) ∧
    (createNewLevel s e tid).elements = s.elements ∧
    levelZeroNodes (createNewLevel s e tid) = levelZeroNodes s := by
  obtain ⟨g0, hg0, hwf, hfr, hel, htl, hilen, ⟨ndl, hndl, htid, hndlv⟩, habove⟩ := hP
  rw [hg] at hg0
  injection hg0 with hg0
  subst hg0
  obtain ⟨hgne, hnum, hwfl, htow, hnodup⟩ := hwf
  match g, hgne, hnum, hwfl, htow, hnodup, hilen, hndl, habove, htl, hfr, hel, hg, hi with
  | top :: rest, _, hnum, hwfl, htow, hnodup, hilen, hndl, habove, htl, hfr, hel, hg, hi =>
  have htopwf : wfNodes top.nodes := hwfl top (by simp)
  have htv : top.value = rest.length := (wfNums_cons.mp hnum).1
  have hival : i = top.value := by simpa [headValue] using hi
  match hhd : top.nodes, htopwf.1 with
  | hd :: tl, _ =>
  have hhdval : hd.value = SkipListKey.negInf := by
    rw [hhd] at htopwf
    simpa using htopwf.1
  obtain ⟨lastN, hlastN⟩ : ∃ lastN, top.nodes.getLast? = some lastN := by
    rw [hhd]
    exact ⟨(hd :: tl).getLast (by simp), List.getLast?_eq_getLast_of_ne_nil (by simp)⟩
  have hlastNv : lastN.value = SkipListKey.posInf := by
    have := htopwf.2.1
    rw [hlastN] at this
    simpa using this
  have hlastmem : lastN ∈ top.nodes := mem_of_getLast?_eq_some hlastN
  -- the state built by createNewLevel
  have hbelowNeg : (top :: rest).head?.map (·.nodes.head?.map (·.id)) = some (some hd.id) := by
    simp [hhd]
  have hcreate : createNewLevel s e tid = updateTail
      { s with
        head := some ((⟨headValue (top :: rest) + 1,
          [⟨s.fresh, .negInf, some hd.id⟩,
           ⟨s.fresh + 1, .normal e, tid⟩,
           ⟨s.fresh + 2, .posInf, s.tail⟩]⟩ : Level α) :: top :: rest),
        fresh := s.fresh + 3 } := by
    unfold createNewLevel
    rw [hg]
    simp [hhd]
  have hnodesAtTop : nodesAt (top :: rest) i = top.nodes := by
    rw [hival]
    exact nodesAt_cons_self rfl
  rw [hnodesAtTop] at hndl
  have hival2 : headValue (top :: rest) = top.value := rfl
  -- unfolding updateTail on the new grid
  have hcreate2 : createNewLevel s e tid =
      { head := some ((⟨top.value + 1,
          [⟨s.fresh, .negInf, some hd.id⟩,
           ⟨s.fresh + 1, .normal e, tid⟩,
           ⟨s.fresh + 2, .posInf, s.tail⟩]⟩ : Level α) :: top :: rest),
        tail := some (s.fresh + 2),
        elements := s.elements,
        fresh := s.fresh + 3 } := by
    rw [hcreate]
    simp [updateTail, hival2]
  refine ⟨?_, by rw [hcreate2], ?_⟩
  · rw [hcreate2]
    refine ⟨_, rfl, ⟨by simp, ?_, ?_, ?_, ?_⟩, ?_, ?_, ?_, ?_, ?_, ?_⟩
    · -- wfNums
      rw [wfNums_cons]
      constructor
      · simpa using htv
      · exact hnum
    · -- wfNodes of every level
      intro lv hlv
      rcases List.mem_cons.mp hlv with h | h
      · rw [h]
        refine ⟨by simp, by simp, ?_, ?_⟩
        · refine ⟨?_, ?_, trivial⟩
          · simp [nodeLt, keyLt_negInf_normal]
          · simp [nodeLt, keyLt_normal_posInf]
        · simp [idsOf]
      · exact hwfl lv h
    · -- towers
      refine ⟨?_, htow⟩
      intro n hn
      rcases List.mem_cons.mp hn with h | h
      · refine ⟨hd, by rw [hhd]; simp, ?_, ?_⟩
        · rw [h]
        · rw [h, hhdval]
          rfl
      · rcases List.mem_cons.mp h with h2 | h2
        · refine ⟨ndl, hndl, ?_, ?_⟩
          · rw [h2]
            exact htid
          · rw [h2, hndlv]
            simp [keyEq]
        · simp at h2
          refine ⟨lastN, hlastmem, ?_, ?_⟩
          · rw [h2]
            simp only []
            show s.tail = some lastN.id
            rw [htl]
            simp [tailTarget, hlastN]
          · rw [h2, hlastNv]
            rfl
    · -- Nodup of all ids
      rw [allIds_cons]
      apply List.Nodup.append
      · simp [idsOf]
      · exact hnodup
      · intro x hx hx2
        have := hfr x hx2
        simp [idsOf] at hx
        omega
    · -- fresh bound
      intro id hid
      rw [allIds_cons] at hid
      show id < s.fresh + 3
      rcases List.mem_append.mp hid with h | h
      · simp [idsOf] at h
        omega
      · have := hfr id h
        omega
    · -- elements
      rw [nodesAt_cons_ne (by show top.value + 1 ≠ 0; omega)]
      exact hel
    · -- tail
      simp [tailTarget]
    · -- level exists
      show i + 1 < rest.length + 1 + 1
      omega
    · -- the temp node
      refine ⟨⟨s.fresh + 1, .normal e, tid⟩, ?_, ?_, rfl⟩
      · rw [show i + 1 = top.value + 1 by omega, nodesAt_cons_self rfl]
        simp
      · simp [secondTopId]
    · -- nothing above
      intro j hj
      rw [nodesAt_cons_ne (by show top.value + 1 ≠ j; omega)]
      have hnone : getLevel (top :: rest) j = none := by
        apply getLevel_none_of_ge hnum
        show rest.length + 1 ≤ j
        omega
      simp [nodesAt, hnone, keysOf]
  · rw [hcreate2]
    simp only [levelZeroNodes, hg]
    rw [nodesAt_cons_ne (by show top.value + 1 ≠ 0; omega)]

theorem promote_step_insert {e : α} {s : SkipListSet α} {tid : Option Nat}
    {i : Nat} {g : List (Level α)}
    (hP : promoteInv e s tid i) (hg : s.head = some g)
    (hi : i + 1 < g.length) :
    ∃ rid, search g e ((i + 1 : Nat) : Int) = some rid ∧
      promoteInv e
        { s with
          head := some (insertAfterId g rid ⟨s.fresh, .normal e, tid⟩)
          fresh := s.fresh + 1 }
        (some s.fresh) (i + 1) ∧
      levelZeroNodes
        { s with
          head := some (insertAfterId g rid ⟨s.fresh, .normal e, tid⟩)
          fresh := s.fresh + 1 } = levelZeroNodes s := by
  obtain ⟨g0, hg0, hwf, hfr, hel, htl, hilen, ⟨ndl, hndl, htid, hndlv⟩, habove⟩ := hP
  rw [hg] at hg0
  injection hg0 with hg0
  subst hg0
  have hnotmem : SkipListKey.normal e ∉ keysOf (nodesAt g (i + 1)) :=
    habove (i + 1) (by omega)
  obtain ⟨preT, r, nxt, tlT, hsp, hsearch, hr, hn⟩ :=
    search_insertion_point hwf hi hnotmem
  obtain ⟨j, hjget⟩ : ∃ j, getLevel g (i + 1) = some j := by
    cases hj : getLevel g (i + 1) with
    | none =>
        rw [nodesAt, hj] at hsp
        simp at hsp
    | some j => exact ⟨j, rfl⟩
  obtain ⟨⟨A, B, hAB⟩, hjv⟩ := getLevel_eq_some_split hjget
  have hjnodes : j.nodes = preT ++ r :: nxt :: tlT := by
    rw [nodesAt, hjget] at hsp
    simpa using hsp
  have hnum : wfNums g := hwf.2.1
  have hBlen : B.length = i + 1 := by
    have := (wfNums_split (by rw [← hAB]; exact hnum)).1
    omega
  match B, hAB, hBlen with
  | bl :: B', hAB, hBlen =>
  have hjB : wfNums (j :: bl :: B') := (wfNums_split (by rw [← hAB]; exact hnum)).2
  have hblv : bl.value = i := by
    have h1 := (wfNums_cons.mp (wfNums_cons.mp hjB).2).1
    have h2 : B'.length = i := by
      have := hBlen
      simp at this
      omega
    omega
  have hgshape : g = (A ++ [j]) ++ bl :: B' := by
    rw [hAB]
    simp
  have hbl : getLevel g i = some bl := by
    rw [hgshape, ← hblv]
    exact getLevel_split (by rw [← hgshape]; exact hnum)
  have hndlbl : ndl ∈ bl.nodes := by
    rw [nodesAt, hbl] at hndl
    simpa using hndl
  have htb : (bl :: B' : List (Level α)) = [] ∨ ∃ bl2 B2, bl :: B' = bl2 :: B2 ∧
      ∃ mm ∈ bl2.nodes,
        (⟨s.fresh, SkipListKey.normal e, tid⟩ : Node α).below = some mm.id ∧
        keyEq (⟨s.fresh, SkipListKey.normal e, tid⟩ : Node α).value mm.value = true := by
    refine Or.inr ⟨bl, B', rfl, ndl, hndlbl, ?_, ?_⟩
    · exact htid
    · show keyEq (SkipListKey.normal e) ndl.value = true
      rw [hndlv]
      simp [keyEq]
  obtain ⟨hwf', hperm, hmap, hAt, hAtNe⟩ :=
    grid_insert_spec hAB hwf hjnodes
      (show nodeLt r ⟨s.fresh, SkipListKey.normal e, tid⟩ from hr)
      (show nodeLt ⟨s.fresh, SkipListKey.normal e, tid⟩ nxt from hn)
      (by intro x hx; exact hfr x hx) htb
  have hins : insertAfterId g r.id (⟨s.fresh, SkipListKey.normal e, tid⟩ : Node α)
      = A ++ (⟨j.value, preT ++ r :: (⟨s.fresh, SkipListKey.normal e, tid⟩ : Node α)
          :: nxt :: tlT⟩ : Level α) :: bl :: B' :=
    insertAfterId_split hAB hjnodes hwf.2.2.2.2
  have hlen' : (A ++ (⟨j.value, preT ++ r :: (⟨s.fresh, SkipListKey.normal e, tid⟩ : Node α)
      :: nxt :: tlT⟩ : Level α) :: bl :: B').length = g.length := by
    rw [hAB]
    simp
  have htt : tailTarget (A ++ (⟨j.value, preT ++ r
      :: (⟨s.fresh, SkipListKey.normal e, tid⟩ : Node α) :: nxt :: tlT⟩ : Level α)
        :: bl :: B') = tailTarget g := by
    rw [hAB]
    cases A with
    | nil =>
        show (preT ++ r :: (⟨s.fresh, SkipListKey.normal e, tid⟩ : Node α)
          :: nxt :: tlT).getLast?.map (·.id) = j.nodes.getLast?.map (·.id)
        rw [getLast?_insert_mid, hjnodes]
    | cons a A' => rfl
  refine ⟨r.id, hsearch, ?_, ?_⟩
  · refine ⟨A ++ (⟨j.value, preT ++ r :: (⟨s.fresh, SkipListKey.normal e, tid⟩ : Node α)
        :: nxt :: tlT⟩ : Level α) :: bl :: B', by rw [hins], hwf', ?_, ?_, ?_, ?_, ?_, ?_⟩
    · intro id hid
      show id < s.fresh + 1
      rcases List.mem_cons.mp ((hperm.mem_iff).mp hid) with h | h
      · rw [h]
        show s.fresh < s.fresh + 1
        omega
      · have := hfr id h
        omega
    · rw [hAtNe 0 (by omega)]
      exact hel
    · rw [htt]
      exact htl
    · rw [hlen']
      exact hi
    · refine ⟨⟨s.fresh, SkipListKey.normal e, tid⟩, ?_, rfl, rfl⟩
      rw [show i + 1 = j.value by omega, hAt]
      simp
    · intro j2 hj2
      rw [hAtNe j2 (by omega)]
      exact habove j2 (by omega)
  · show nodesAt (insertAfterId g r.id
        (⟨s.fresh, SkipListKey.normal e, tid⟩ : Node α)) 0 = levelZeroNodes s
    rw [hins, hAtNe 0 (by omega)]
    simp [levelZeroNodes, hg]

theorem chainP_of_append_right {β : Type} {R : β → β → Prop} :
    ∀ {A B : List β}, chainP R (A ++ B) → chainP R B := by
  intro A
  induction A with
  | nil => exact fun h => h
  | cons a A ih => exact fun h => ih (chainP_tail h)

theorem getLevel_append_of_lt {A B : List (Level α)}
    (h : wfNums (A ++ B)) {m : Nat} (hm : m < B.length) :
    getLevel (A ++ B) m = getLevel B m := by
  induction A with
  | nil => rfl
  | cons a A ih =>
      have ha := (wfNums_cons.mp h).1
      simp only [List.append_eq] at ha
      have hlen : (A ++ B).length = A.length + B.length := by
        rw [List.length_append]
      rw [List.cons_append, getLevel_cons_ne (by omega)]
      exact ih (wfNums_cons.mp h).2

theorem tower_down_grid {g : List (Level α)} (hwf : gridWF g)
    {k : SkipListKey α} {j2 m : Nat} (hm : m ≤ j2)
    (hk : k ∈ keysOf (nodesAt g j2)) : k ∈ keysOf (nodesAt g m) := by
  obtain ⟨hne, hnum, hwfl, htow, _⟩ := hwf
  cases hget : getLevel g j2 with
  | none =>
      rw [nodesAt, hget] at hk
      simp [keysOf] at hk
  | some lv =>
      obtain ⟨⟨A2, B2, hAB⟩, hlv⟩ := getLevel_eq_some_split hget
      have hnum2 : wfNums (lv :: B2) := (wfNums_split (by rw [← hAB]; exact hnum)).2
      have hB2 : B2.length = j2 := by
        have := (wfNums_cons.mp hnum2).1
        omega
      have hklv : k ∈ keysOf lv.nodes := by
        rw [nodesAt, hget] at hk
        simpa using hk
      have hdown := tower_down (k := k) (m := m) B2 lv
        (chainP_of_append_right (by rw [← hAB]; exact htow))
        hnum2 (by omega) hklv
      have hconv : nodesAt g m = nodesAt (lv :: B2) m := by
        rw [hAB]
        unfold nodesAt
        rw [getLevel_append_of_lt (by rw [← hAB]; exact hnum)
          (by simp only [List.length_cons]; omega)]
      rw [hconv]
      exact hdown

theorem normalsOf_length_insert {preL postL : List (Node α)} {nd : Node α}
    {e : α} (h : nd.value = .normal e) :
    (normalsOf (preL ++ nd :: postL)).length
      = (normalsOf (preL ++ postL)).length + 1 := by
  simp [normalsOf, List.filterMap_append, List.filterMap_cons, h]
  omega

theorem promoteLoop_spec (e : α) :
    ∀ (flips : List Bool) (s : SkipListSet α) (tid : Option Nat) (i : Nat),
      promoteInv e s tid i →
      ∃ s', promoteLoop e s tid (i : Int) flips = some s' ∧ Inv s' ∧
        s'.elements = s.elements ∧ levelZeroNodes s' = levelZeroNodes s := by
  intro flips
  induction flips with
  | nil =>
      intro s tid i hP
      exact ⟨s, rfl, promoteInv_inv hP, rfl, rfl⟩
  | cons flip fs ih =>
      intro s tid i hP
      cases flip with
      | false => exact ⟨s, rfl, promoteInv_inv hP, rfl, rfl⟩
      | true =>
          have hPc := hP
          obtain ⟨g, hg, hwf, hfr, hel, htl, hilen, hndP, hab⟩ := hPc
          have hgl : g.length = headValue g + 1 := by
            obtain ⟨hne, hnum, _⟩ := hwf
            match g, hne, hnum with
            | top :: rest, _, hnum =>
                simp [headValue, (wfNums_cons.mp hnum).1]
          have hcast : ((i + 1 : Nat) : Int) = (i : Int) + 1 := by
            push_cast
            ring
          by_cases hcase : i + 1 > headValue g
          · have hieq : i = headValue g := by omega
            obtain ⟨hP', hel', hlz⟩ := promote_step_create hP hg hieq
            obtain ⟨s', hrun, hinv, hel2, hlz2⟩ :=
              ih (createNewLevel s e tid)
                (secondTopId (createNewLevel s e tid)) (i + 1) hP'
            rw [hcast] at hrun
            refine ⟨s', ?_, hinv, by rw [hel2, hel'], by rw [hlz2, hlz]⟩
            show promoteLoop e s tid (i : Int) (true :: fs) = some s'
            simp only [promoteLoop, hg]
            rw [if_pos (by omega)]
            exact hrun
          · have hi1 : i + 1 < g.length := by omega
            obtain ⟨rid, hsearch, hP', hlz⟩ := promote_step_insert hP hg hi1
            obtain ⟨s', hrun, hinv, hel2, hlz2⟩ := ih _ (some s.fresh) (i + 1) hP'
            rw [hcast] at hrun hsearch
            refine ⟨s', ?_, hinv, by rw [hel2], by rw [hlz2, hlz]⟩
            show promoteLoop e s tid (i : Int) (true :: fs) = some s'
            simp only [promoteLoop, hg]
            rw [if_neg (by omega), hsearch]
            exact hrun

theorem add_none_of_mem {s : SkipListSet α} {g : List (Level α)} {e : α}
    (hInv : Inv s) (hg : s.head = some g)
    (hmem : SkipListKey.normal e ∈ keysOf (nodesAt g 0)) (flips : List Bool) :
    add s e flips = none := by
  obtain ⟨g0, hg0, hwf, _⟩ := hInv
  rw [hg] at hg0
  injection hg0 with hg0
  subst hg0
  have hglen : 0 < g.length := by
    cases g with
    | nil => exact absurd rfl hwf.1
    | cons _ _ => simp
  have hfound : search g e ((0 : Nat) : Int) = none := search_found hwf hglen hmem
  rw [Nat.cast_zero] at hfound
  simp [add, hg, hfound]

theorem add_spec {s : SkipListSet α} {g : List (Level α)} {e : α}
    (hInv : Inv s) (hg : s.head = some g)
    (hnot : SkipListKey.normal e ∉ keysOf (nodesAt g 0)) (flips : List Bool) :
    ∃ s' g', add s e flips = some s' ∧ s'.head = some g' ∧ Inv s' ∧
      s'.elements = s.elements + 1 ∧
      (∀ k, k ∈ keysOf (nodesAt g' 0) ↔
        k = SkipListKey.normal e ∨ k ∈ keysOf (nodesAt g 0)) := by
  obtain ⟨g0, hg0, hwf, hfr, hel, htl⟩ := hInv
  rw [hg] at hg0
  injection hg0 with hg0
  subst hg0
  have hglen : 0 < g.length := by
    cases g with
    | nil => exact absurd rfl hwf.1
    | cons _ _ => simp
  obtain ⟨preT, r, nxt, tlT, hsp, hsearch, hr, hn⟩ :=
    search_insertion_point hwf hglen hnot
  rw [Nat.cast_zero] at hsearch
  obtain ⟨j, hjget⟩ : ∃ j, getLevel g 0 = some j := by
    cases hj : getLevel g 0 with
    | none =>
        rw [nodesAt, hj] at hsp
        simp at hsp
    | some j => exact ⟨j, rfl⟩
  obtain ⟨⟨A, B, hAB⟩, hjv⟩ := getLevel_eq_some_split hjget
  have hjnodes : j.nodes = preT ++ r :: nxt :: tlT := by
    rw [nodesAt, hjget] at hsp
    simpa using hsp
  have hnum : wfNums g := hwf.2.1
  have hBnil : B = [] := by
    have := (wfNums_split (by rw [← hAB]; exact hnum)).1
    rw [hjv] at this
    exact List.length_eq_zero.mp this.symm
  subst hBnil
  obtain ⟨hwf', hperm, hmap, hAt, hAtNe⟩ :=
    grid_insert_spec hAB hwf hjnodes
      (show nodeLt r ⟨s.fresh, SkipListKey.normal e, none⟩ from hr)
      (show nodeLt ⟨s.fresh, SkipListKey.normal e, none⟩ nxt from hn)
      (by intro x hx; exact hfr x hx) (Or.inl rfl)
  have hins : insertAfterId g r.id (⟨s.fresh, SkipListKey.normal e, none⟩ : Node α)
      = A ++ (⟨j.value, preT ++ r :: (⟨s.fresh, SkipListKey.normal e, none⟩ : Node α)
          :: nxt :: tlT⟩ : Level α) :: [] :=
    insertAfterId_split hAB hjnodes hwf.2.2.2.2
  have hlen' : (A ++ (⟨j.value, preT ++ r
      :: (⟨s.fresh, SkipListKey.normal e, none⟩ : Node α) :: nxt :: tlT⟩ : Level α)
        :: ([] : List (Level α))).length = g.length := by
    rw [hAB]
    simp
  have htt : tailTarget (A ++ (⟨j.value, preT ++ r
      :: (⟨s.fresh, SkipListKey.normal e, none⟩ : Node α) :: nxt :: tlT⟩ : Level α)
        :: ([] : List (Level α))) = tailTarget g := by
    rw [hAB]
    cases A with
    | nil =>
        show (preT ++ r :: (⟨s.fresh, SkipListKey.normal e, none⟩ : Node α)
          :: nxt :: tlT).getLast?.map (·.id) = j.nodes.getLast?.map (·.id)
        rw [getLast?_insert_mid, hjnodes]
    | cons a A' => rfl
  have hcount : (normalsOf (preT ++ r :: (⟨s.fresh, SkipListKey.normal e, none⟩ : Node α)
      :: nxt :: tlT)).length = (normalsOf (preT ++ r :: nxt :: tlT)).length + 1 := by
    have h1 : preT ++ r :: (⟨s.fresh, SkipListKey.normal e, none⟩ : Node α) :: nxt :: tlT
        = (preT ++ [r]) ++ (⟨s.fresh, SkipListKey.normal e, none⟩ : Node α) :: nxt :: tlT := by
      simp
    have h2 : preT ++ r :: nxt :: tlT = (preT ++ [r]) ++ nxt :: tlT := by
      simp
    rw [h1, h2]
    exact normalsOf_length_insert rfl
  have hP1 : promoteInv e
      { head := some (insertAfterId g r.id ⟨s.fresh, SkipListKey.normal e, none⟩),
        tail := s.tail,
        elements := s.elements + 1,
        fresh := s.fresh + 1 } (some s.fresh) 0 := by
    refine ⟨A ++ (⟨j.value, preT ++ r :: (⟨s.fresh, SkipListKey.normal e, none⟩ : Node α)
        :: nxt :: tlT⟩ : Level α) :: [], by rw [hins], hwf', ?_, ?_, ?_, ?_, ?_, ?_⟩
    · intro id hid
      show id < s.fresh + 1
      rcases List.mem_cons.mp ((hperm.mem_iff).mp hid) with h | h
      · rw [h]
        show s.fresh < s.fresh + 1
        omega
      · have := hfr id h
        omega
    · show s.elements + 1 = _
      rw [show (0 : Nat) = j.value by omega, hAt, hcount, ← hsp, hel]
      push_cast
      ring
    · show s.tail = _
      rw [htt]
      exact htl
    · show (0 : Nat) < _
      rw [hlen']
      exact hglen
    · refine ⟨⟨s.fresh, SkipListKey.normal e, none⟩, ?_, rfl, rfl⟩
      rw [show (0 : Nat) = j.value by omega, hAt]
      simp
    · intro j2 hj2
      rw [hAtNe j2 (by omega)]
      intro hmem
      exact hnot (tower_down_grid hwf (m := 0) (by omega) hmem)
  obtain ⟨s', hrun, hinv, hel2, hlz2⟩ :=
    promoteLoop_spec e flips
      { head := some (insertAfterId g r.id ⟨s.fresh, SkipListKey.normal e, none⟩),
        tail := s.tail,
        elements := s.elements + 1,
        fresh := s.fresh + 1 } (some s.fresh) 0 hP1
  rw [Nat.cast_zero] at hrun
  obtain ⟨g'', hg'', hwf2, hfr2, hel3, htl3⟩ := hinv
  refine ⟨s', g'', ?_, hg'', ⟨g'', hg'', hwf2, hfr2, hel3, htl3⟩, by rw [hel2], ?_⟩
  · show add s e flips = some s'
    simp only [add, hg, hsearch]
    exact hrun
  · have hlz3 : nodesAt g'' 0 = preT ++ r
        :: (⟨s.fresh, SkipListKey.normal e, none⟩ : Node α) :: nxt :: tlT := by
      have h1 : levelZeroNodes s' = nodesAt g'' 0 := by
        simp [levelZeroNodes, hg'']
      rw [← h1, hlz2]
      show nodesAt (insertAfterId g r.id
        (⟨s.fresh, SkipListKey.normal e, none⟩ : Node α)) 0 = _
      rw [hins, show (0 : Nat) = j.value by omega, hAt]
    intro k
    rw [hlz3, hsp]
    simp only [keysOf, List.map_append, List.map_cons, List.mem_append,
      List.mem_cons]
    constructor
    · intro h
      tauto
    · intro h
      tauto

theorem mkSkipListSet_inv : Inv (mkSkipListSet : SkipListSet α) := by
  refine ⟨_, rfl, ⟨by simp, ?_, ?_, ?_, ?_⟩, ?_, ?_, ?_⟩
  · show wfNums [⟨0, [⟨0, .negInf, none⟩, ⟨1, .posInf, none⟩]⟩]
    rfl
  · intro lv hlv
    simp at hlv
    rw [hlv]
    refine ⟨rfl, rfl, ?_, by simp [idsOf]⟩
    show nodeLt (⟨0, .negInf, none⟩ : Node α) ⟨1, .posInf, none⟩ ∧ True
    exact ⟨rfl, trivial⟩
  · exact trivial
  · simp [allIds, idsOf]
  · intro i hi
    simp [allIds, idsOf] at hi
    show i < 2
    omega
  · show (0 : Int) = _
    simp [nodesAt, getLevel, normalsOf]
  · rfl

theorem keysAtZero_mk :
    keysOf (nodesAt ([⟨0, [⟨0, .negInf, none⟩, ⟨1, .posInf, none⟩]⟩]
      : List (Level α)) 0) = [SkipListKey.negInf, SkipListKey.posInf] := by
  simp [nodesAt, getLevel, keysOf]

theorem contains_iff {s : SkipListSet α} {g : List (Level α)}
    (hInv : Inv s) (hg : s.head = some g) (e : α) :
    contains s e
      = some (decide (SkipListKey.normal e ∈ keysOf (nodesAt g 0))) := by
  obtain ⟨g0, hg0, hwf, _⟩ := hInv
  rw [hg] at hg0
  injection hg0 with hg0
  subst hg0
  have hglen : 0 < g.length := by
    cases g with
    | nil => exact absurd rfl hwf.1
    | cons _ _ => simp
  by_cases hmem : SkipListKey.normal e ∈ keysOf (nodesAt g 0)
  · have hfound := search_found hwf hglen hmem
    rw [Nat.cast_zero] at hfound
    simp [contains, containsG, hg, hfound, hmem]
  · obtain ⟨_, _, _, _, _, hres, _, _⟩ := search_insertion_point hwf hglen hmem
    rw [Nat.cast_zero] at hres
    simp [contains, containsG, hg, hres, hmem]

theorem runFrom_inv :
    ∀ (t : List (α × List Bool)) (s s' : SkipListSet α),
      Inv s → runFrom s t = some s' → Inv s' := by
  intro t
  induction t with
  | nil =>
      intro s s' hInv hrun
      injection hrun with hrun
      rw [← hrun]
      exact hInv
  | cons p t' ih =>
      intro s s' hInv hrun
      have hInv2 := hInv
      obtain ⟨g, hg, _⟩ := hInv2
      unfold runFrom at hrun
      cases hadd : add s p.1 p.2 with
      | none =>
          rw [hadd] at hrun
          cases hrun
      | some s₂ =>
          rw [hadd] at hrun
          by_cases hmem : SkipListKey.normal p.1 ∈ keysOf (nodesAt g 0)
          · rw [add_none_of_mem hInv hg hmem p.2] at hadd
            cases hadd
          · obtain ⟨s₃, g₃, hadd2, _, hinv3, _, _⟩ := add_spec hInv hg hmem p.2
            rw [hadd2] at hadd
            injection hadd with hadd
            rw [hadd] at hinv3
            exact ih s₂ s' hinv3 hrun

theorem runFrom_distinct :
    ∀ (t : List (α × List Bool)) (s : SkipListSet α) (g : List (Level α)),
      Inv s → s.head = some g →
      (∀ x ∈ t.map Prod.fst, SkipListKey.normal x ∉ keysOf (nodesAt g 0)) →
      (t.map Prod.fst).Nodup →
      ∃ s' g', runFrom s t = some s' ∧ s'.head = some g' ∧ Inv s' ∧
        (∀ k, k ∈ keysOf (nodesAt g' 0) ↔
          k ∈ t.map (fun p => SkipListKey.normal p.1) ∨
          k ∈ keysOf (nodesAt g 0)) := by
  intro t
  induction t with
  | nil =>
      intro s g hInv hg _ _
      exact ⟨s, g, rfl, hg, hInv, by simp⟩
  | cons p t' ih =>
      intro s g hInv hg hfreshkeys hnd
      have hmem : SkipListKey.normal p.1 ∉ keysOf (nodesAt g 0) :=
        hfreshkeys p.1 (by simp)
      obtain ⟨s₂, g₂, hadd, hg₂, hinv₂, _, hiff₂⟩ := add_spec hInv hg hmem p.2
      have hfresh' : ∀ x ∈ t'.map Prod.fst,
          SkipListKey.normal x ∉ keysOf (nodesAt g₂ 0) := by
        intro x hx hk
        rcases (hiff₂ (SkipListKey.normal x)).mp hk with h | h
        · have hxe : x = p.1 := by
            injection h
          rw [List.map_cons] at hnd
          rw [hxe] at hx
          exact (List.nodup_cons.mp hnd).1 hx
        · exact hfreshkeys x (by simp [hx]) h
      have hnd' : (t'.map Prod.fst).Nodup := by
        rw [List.map_cons] at hnd
        exact (List.nodup_cons.mp hnd).2
      obtain ⟨s', g', hrun, hg', hinv', hiff'⟩ :=
        ih s₂ g₂ hinv₂ hg₂ hfresh' hnd'
      refine ⟨s', g', ?_, hg', hinv', ?_⟩
      · unfold runFrom
        rw [hadd]
        exact hrun
      · intro k
        rw [hiff' k]
        constructor
        · intro h
          rcases h with h | h
          · exact Or.inl (by simp at h ⊢; tauto)
          · rcases (hiff₂ k).mp h with h2 | h2
            · exact Or.inl (by simp [h2])
            · exact Or.inr h2
        · intro h
          rcases h with h | h
          · simp at h
            rcases h with h | h
            · exact Or.inr ((hiff₂ k).mpr (Or.inl h))
            · exact Or.inl (by simp; tauto)
          · exact Or.inr ((hiff₂ k).mpr (Or.inr h))

theorem linkLevelsA_none : ∀ (g : List (Level α)) (cnt : Nat),
    linkLevelsA none cnt g = .ok (g.map (·.value), cnt + g.length) := by
  intro g
  induction g with
  | nil => intro cnt; simp [linkLevelsA]
  | cons lv rest ih =>
      intro cnt
      simp [linkLevelsA, ih (cnt + 1)]
      omega

theorem renumber_keys : ∀ (fr : Nat) (ns : List (Node α)),
    keysOf (renumber fr ns) = keysOf ns := by
  intro fr ns
  induction ns generalizing fr with
  | nil => rfl
  | cons n rest ih =>
      simp only [renumber, keysOf, List.map_cons]
      rw [show (renumber (fr + 1) rest).map (·.value) = keysOf (renumber (fr + 1) rest) from rfl, ih]
      rfl

theorem renumber_ids : ∀ (fr : Nat) (ns : List (Node α)),
    idsOf (renumber fr ns) = List.range' fr ns.length := by
  intro fr ns
  induction ns generalizing fr with
  | nil => rfl
  | cons n rest ih =>
      simp only [renumber, idsOf, List.map_cons, List.length_cons, List.range'_succ]
      rw [show (renumber (fr + 1) rest).map (·.id) = idsOf (renumber (fr + 1) rest) from rfl, ih]

theorem renumber_eq_nil {fr : Nat} {ns : List (Node α)} :
    renumber fr ns = [] ↔ ns = [] := by
  cases ns <;> simp [renumber]

theorem linkNodesA_none : ∀ (ns : List (Node α)) (cnt fr : Nat),
    linkNodesA none cnt fr ns
      = .ok (renumber fr ns, cnt + 2 * ns.length, fr + ns.length) := by
  intro ns
  induction ns with
  | nil => intro cnt fr; simp [linkNodesA, renumber]
  | cons n rest ih =>
      intro cnt fr
      simp [linkNodesA, renumber, ih]
      omega

theorem linkNextA_none : ∀ (g : List (Level α)) (cnt fr : Nat),
    linkNextA none cnt fr g
      = .ok ((renumberAll fr g).1, cnt + 2 * totalNodes g,
          (renumberAll fr g).2) := by
  intro g
  induction g with
  | nil => intro cnt fr; simp [linkNextA, renumberAll, totalNodes]
  | cons p ps ih =>
      intro cnt fr
      simp [linkNextA, linkNodesA_none, ih, renumberAll, totalNodes]
      omega

theorem renumberAll_snd : ∀ (fr : Nat) (g : List (Level α)),
    (renumberAll fr g).2 = fr + totalNodes g := by
  intro fr g
  induction g generalizing fr with
  | nil => simp [renumberAll, totalNodes]
  | cons p ps ih =>
      simp [renumberAll, totalNodes, ih]
      omega

theorem zip_renumber_eq_copyLevels : ∀ (g : List (Level α)) (fr : Nat),
    List.zipWith (fun v ns => (⟨v, ns⟩ : Level α)) (g.map (·.value))
        ((renumberAll fr g).1)
      = copyLevels fr g := by
  intro g
  induction g with
  | nil => intro fr; rfl
  | cons p ps ih => intro fr; simp [renumberAll, copyLevels, ih]

theorem copyLevels_values : ∀ (fr : Nat) (g : List (Level α)),
    (copyLevels fr g).map (·.value) = g.map (·.value) := by
  intro fr g
  induction g generalizing fr with
  | nil => rfl
  | cons p ps ih => simp [copyLevels, ih]

theorem copyLevels_keys : ∀ (fr : Nat) (g : List (Level α)),
    (copyLevels fr g).map (fun lv => keysOf lv.nodes)
      = g.map (fun lv => keysOf lv.nodes) := by
  intro fr g
  induction g generalizing fr with
  | nil => rfl
  | cons p ps ih => simp [copyLevels, ih, renumber_keys]

theorem copyLevels_allIds : ∀ (fr : Nat) (g : List (Level α)),
    allIds (copyLevels fr g) = List.range' fr (totalNodes g) := by
  intro fr g
  induction g generalizing fr with
  | nil => simp [copyLevels, allIds, totalNodes]
  | cons p ps ih =>
      have hr := List.range'_append fr p.nodes.length (totalNodes ps) 1
      simp only [one_mul] at hr
      simp [copyLevels, allIds_cons, renumber_ids, ih, totalNodes, hr,
        Nat.add_comm (totalNodes ps) p.nodes.length]
      omega

theorem copyLevels_mem : ∀ {fr : Nat} {g : List (Level α)} {lv : Level α},
    lv ∈ copyLevels fr g →
    ∃ orig ∈ g, ∃ off, lv = ⟨orig.value, renumber off orig.nodes⟩ := by
  intro fr g
  induction g generalizing fr with
  | nil => intro lv h; cases h
  | cons p ps ih =>
      intro lv h
      rcases List.mem_cons.mp h with h | h
      · exact ⟨p, List.mem_cons_self p ps, fr, h⟩
      · obtain ⟨orig, ho, off, he⟩ := ih h
        exact ⟨orig, List.mem_cons_of_mem p ho, off, he⟩

theorem keysOf_head? (ns : List (Node α)) :
    (keysOf ns).head? = ns.head?.map (·.value) := by
  cases ns <;> rfl

theorem keysOf_getLast? (ns : List (Node α)) :
    (keysOf ns).getLast? = ns.getLast?.map (·.value) :=
  List.getLast?_map _ _

theorem chainP_nodeLt_keys : ∀ (ns : List (Node α)),
    chainP (fun a b => keyLt a b = true) (keysOf ns) ↔ chainP nodeLt ns := by
  intro ns
  induction ns with
  | nil => exact Iff.rfl
  | cons a rest ih =>
      cases rest with
      | nil => exact Iff.rfl
      | cons b tl =>
          show (keyLt a.value b.value = true ∧
              chainP (fun x y => keyLt x y = true) (keysOf (b :: tl)))
            ↔ (nodeLt a b ∧ chainP nodeLt (b :: tl))
          exact and_congr Iff.rfl ih

theorem wfNodes_of_keys {a b : List (Node α)} (hk : keysOf a = keysOf b)
    (hnd : (idsOf a).Nodup) (h : wfNodes b) : wfNodes a := by
  obtain ⟨h1, h2, h3, _⟩ := h
  refine ⟨?_, ?_, ?_, hnd⟩
  · rw [← keysOf_head?, hk, keysOf_head?]
    exact h1
  · rw [← keysOf_getLast?, hk, keysOf_getLast?]
    exact h2
  · exact (chainP_nodeLt_keys a).mp
      (by rw [hk]; exact (chainP_nodeLt_keys b).mpr h3)

theorem normalsOf_keys (ns : List (Node α)) :
    normalsOf ns = (keysOf ns).filterMap
      (fun k => match k with | .normal a => some a | _ => none) := by
  rw [keysOf, List.filterMap_map]
  rfl

theorem mem_of_map_eq₂ {β γ δ : Type} {f : β → γ} {fh : β → δ} :
    ∀ {l₁ l₂ : List β}, l₁.map f = l₂.map f → l₁.map fh = l₂.map fh →
      ∀ x ∈ l₁, ∃ y ∈ l₂, f x = f y ∧ fh x = fh y := by
  intro l₁
  induction l₁ with
  | nil => intro l₂ _ _ x hx; cases hx
  | cons a as ih =>
      intro l₂ hf hh x hx
      cases l₂ with
      | nil => simp at hf
      | cons b bs =>
          simp only [List.map_cons, List.cons.injEq] at hf hh
          rcases List.mem_cons.mp hx with hxa | hxas
          · exact ⟨b, List.mem_cons_self b bs,
              by rw [hxa, hf.1], by rw [hxa, hh.1]⟩
          · obtain ⟨y, hy, h1, h2⟩ := ih hf.2 hh.2 x hxas
            exact ⟨y, List.mem_cons_of_mem b hy, h1, h2⟩

theorem towered_congr_lower {up low low' : List (Node α)}
    (hk : keysOf low' = keysOf low) (hi : idsOf low' = idsOf low)
    (h : towered up low) : towered up low' := by
  intro n hn
  obtain ⟨m, hm, hb, he⟩ := h n hn
  have hk' : low.map (fun nd => nd.value) = low'.map (fun nd => nd.value) := hk.symm
  have hi' : low.map (fun nd => nd.id) = low'.map (fun nd => nd.id) := hi.symm
  obtain ⟨m', hm', h1, h2⟩ := mem_of_map_eq₂ hk' hi' m hm
  refine ⟨m', hm', ?_, ?_⟩
  · rw [hb, h2]
  · rw [← h1]
    exact he

theorem sublist_of_sorted_subset :
    ∀ (l₂ l₁ : List (SkipListKey α)),
      l₁.Pairwise (fun a b => keyLt a b = true) →
      l₂.Pairwise (fun a b => keyLt a b = true) →
      (∀ k ∈ l₁, k ∈ l₂) → l₁.Sublist l₂ := by
  intro l₂
  induction l₂ with
  | nil =>
      intro l₁ _ _ hsub
      cases l₁ with
      | nil => exact List.Sublist.refl []
      | cons a as => exact absurd (hsub a (List.mem_cons_self a as)) (by simp)
  | cons b bs ih =>
      intro l₁ h₁ h₂ hsub
      cases l₁ with
      | nil => exact List.nil_sublist _
      | cons a as =>
          by_cases hab : a = b
          · subst hab
            refine List.cons_sublist_cons.mpr
              (ih as (List.pairwise_cons.mp h₁).2 (List.pairwise_cons.mp h₂).2 ?_)
            intro x hx
            have hx2 := hsub x (List.mem_cons_of_mem a hx)
            rcases List.mem_cons.mp hx2 with hxb | hxbs
            · exfalso
              have hlt := (List.pairwise_cons.mp h₁).1 x hx
              rw [hxb, keyLt_irrefl] at hlt
              cases hlt
            · exact hxbs
          · have hsub' : ∀ x ∈ a :: as, x ∈ bs := by
              intro x hx
              have hx2 := hsub x hx
              rcases List.mem_cons.mp hx2 with hxb | hxbs
              · exfalso
                rcases List.mem_cons.mp hx with hxa | hxas
                · exact hab (hxa ▸ hxb)
                · have h1 : keyLt a x = true := (List.pairwise_cons.mp h₁).1 x hxas
                  have ha2 := hsub a (List.mem_cons_self a as)
                  rcases List.mem_cons.mp ha2 with h3 | h3
                  · exact hab h3
                  · have h4 : keyLt b a = true := (List.pairwise_cons.mp h₂).1 a h3
                    rw [hxb] at h1
                    rw [keyLt_asymm h1] at h4
                    cases h4
              · exact hxbs
            exact List.Sublist.cons b
              (ih (a :: as) h₁ (List.pairwise_cons.mp h₂).2 hsub')

theorem keysOf_cons (n : Node α) (ns : List (Node α)) :
    keysOf (n :: ns) = n.value :: keysOf ns := rfl

theorem idsOf_cons (n : Node α) (ns : List (Node α)) :
    idsOf (n :: ns) = n.id :: idsOf ns := rfl

theorem sublist_of_cons_of_ne {γ : Type} {x y : γ} {l₁ l₂ : List γ}
    (h : (x :: l₁).Sublist (y :: l₂)) (hne : x ≠ y) : (x :: l₁).Sublist l₂ := by
  cases h with
  | cons _ h => exact h
  | cons₂ h => exact absurd rfl hne

theorem linkBelowGo_spec :
    ∀ (lower curr : List (Node α)),
      (keysOf curr).Sublist (keysOf lower) →
      (keysOf lower).Pairwise (fun a b => keyLt a b = true) →
      (curr = [] → lower = []) →
      curr.getLast?.map (·.value) = lower.getLast?.map (·.value) →
      ∃ upper', linkBelowGo curr lower = some upper' ∧
        keysOf upper' = keysOf curr ∧ idsOf upper' = idsOf curr ∧
        towered upper' lower := by
  intro lower
  induction lower with
  | nil =>
      intro curr hsub _ _ _
      cases curr with
      | nil =>
          exact ⟨[], rfl, rfl, rfl, fun n hn => absurd hn (List.not_mem_nil n)⟩
      | cons c cs =>
          have hx := List.sublist_nil.mp
            (show (keysOf (c :: cs)).Sublist [] from hsub)
          simp [keysOf] at hx
  | cons p ps ih =>
      intro curr hsub hpw hnil hlast
      cases curr with
      | nil => exact absurd (hnil rfl) (by simp)
      | cons c cs =>
          have hsub0 : (c.value :: keysOf cs).Sublist (p.value :: keysOf ps) :=
            hsub
          have hpw0 : (p.value :: keysOf ps).Pairwise
              (fun a b => keyLt a b = true) := hpw
          by_cases heq : keyEq c.value p.value = true
          · have hcv : c.value = p.value := keyEq_iff_eq.mp heq
            have hsub' : (keysOf cs).Sublist (keysOf ps) := by
              rw [hcv] at hsub0
              exact List.cons_sublist_cons.mp hsub0
            have hpw' := (List.pairwise_cons.mp hpw0).2
            have hnil' : cs = [] → ps = [] := by
              intro hcs
              subst hcs
              cases ps with
              | nil => rfl
              | cons q qs =>
                  exfalso
                  rw [List.getLast?_cons_cons] at hlast
                  have hlast2 : ((q :: qs).getLast?).map (·.value)
                      = some c.value := hlast.symm
                  obtain ⟨last, hl1, hl2⟩ := Option.map_eq_some'.mp hlast2
                  have hmem : last ∈ q :: qs := mem_of_getLast?_eq_some hl1
                  have hlt : keyLt p.value last.value = true :=
                    (List.pairwise_cons.mp hpw0).1 last.value
                      (List.mem_map_of_mem (·.value) hmem)
                  rw [hl2, ← hcv, keyLt_irrefl] at hlt
                  cases hlt
            have hlast' : cs.getLast?.map (·.value)
                = ps.getLast?.map (·.value) := by
              cases cs with
              | nil => rw [hnil' rfl]
              | cons c₂ cs₂ =>
                  cases ps with
                  | nil =>
                      exfalso
                      have hx := List.sublist_nil.mp
                        (show (keysOf (c₂ :: cs₂)).Sublist [] from hsub')
                      simp [keysOf] at hx
                  | cons q qs =>
                      rw [List.getLast?_cons_cons, List.getLast?_cons_cons]
                        at hlast
                      exact hlast
            obtain ⟨r, hr, hk, hi, htow⟩ := ih cs hsub' hpw' hnil' hlast'
            refine ⟨{ c with below := some p.id } :: r, ?_, ?_, ?_, ?_⟩
            · show linkBelowGo (c :: cs) (p :: ps) = _
              simp only [linkBelowGo]
              rw [if_pos heq, hr]
              rfl
            · rw [keysOf_cons, keysOf_cons, hk]
            · rw [idsOf_cons, idsOf_cons, hi]
            · intro n hn
              rcases List.mem_cons.mp hn with h | h
              · refine ⟨p, List.mem_cons_self p ps, ?_, ?_⟩
                · rw [h]
                · rw [h]
                  exact heq
              · obtain ⟨m, hm, hb, hkeq⟩ := htow n h
                exact ⟨m, List.mem_cons_of_mem p hm, hb, hkeq⟩
          · have hne : c.value ≠ p.value := fun h => heq (keyEq_iff_eq.mpr h)
            have hsub' : (keysOf (c :: cs)).Sublist (keysOf ps) :=
              sublist_of_cons_of_ne hsub0 hne
            have hpw' := (List.pairwise_cons.mp hpw0).2
            have hnil'' : (c :: cs) = [] → ps = [] :=
              fun h => absurd h (by simp)
            have hlast' : (c :: cs).getLast?.map (·.value)
                = ps.getLast?.map (·.value) := by
              cases ps with
              | nil =>
                  exfalso
                  have hx := List.sublist_nil.mp
                    (show (keysOf (c :: cs)).Sublist [] from hsub')
                  simp [keysOf] at hx
              | cons q qs =>
                  rw [List.getLast?_cons_cons] at hlast
                  exact hlast
            obtain ⟨r, hr, hk, hi, htow⟩ := ih (c :: cs) hsub' hpw' hnil'' hlast'
            refine ⟨r, ?_, hk, hi, ?_⟩
            · show linkBelowGo (c :: cs) (p :: ps) = some r
              simp only [linkBelowGo]
              rw [if_neg heq]
              exact hr
            · intro n hn
              obtain ⟨m, hm, hb, hkeq⟩ := htow n hn
              exact ⟨m, List.mem_cons_of_mem p hm, hb, hkeq⟩

theorem linkBelowAll_spec :
    ∀ (zs : List (Level α)),
      zs ≠ [] →
      (∀ lv ∈ zs, lv.nodes ≠ [] ∧
        (keysOf lv.nodes).Pairwise (fun a b => keyLt a b = true) ∧
        lv.nodes.getLast?.map (·.value) = some (.posInf)) →
      chainP (fun a b => (keysOf a.nodes).Sublist (keysOf b.nodes)) zs →
      ∃ ls, linkBelowAll zs = some ls ∧
        ls.map (·.value) = zs.map (·.value) ∧
        ls.map (fun lv => keysOf lv.nodes)
          = zs.map (fun lv => keysOf lv.nodes) ∧
        ls.map (fun lv => idsOf lv.nodes)
          = zs.map (fun lv => idsOf lv.nodes) ∧
        chainP (fun a b => towered a.nodes b.nodes) ls := by
  intro zs
  induction zs with
  | nil => intro h; exact absurd rfl h
  | cons a tl ih =>
      intro _ hlv hch
      cases tl with
      | nil => exact ⟨[a], rfl, rfl, rfl, rfl, trivial⟩
      | cons b rest =>
          have ha := hlv a (by simp)
          have hb := hlv b (by simp)
          have hnilimp : a.nodes = [] → b.nodes = [] := fun h => absurd h ha.1
          have hlasteq : a.nodes.getLast?.map (·.value)
              = b.nodes.getLast?.map (·.value) := by
            rw [ha.2.2, hb.2.2]
          obtain ⟨ns', hgo, hk, hi, htow⟩ :=
            linkBelowGo_spec b.nodes a.nodes hch.1 hb.2.1 hnilimp hlasteq
          obtain ⟨ls', hall, hv', hk', hi', hch'⟩ :=
            ih (by simp) (fun lv hm => hlv lv (List.mem_cons_of_mem a hm))
              (chainP_tail hch)
          refine ⟨(⟨a.value, ns'⟩ : Level α) :: ls', ?_, ?_, ?_, ?_, ?_⟩
          · show linkBelowAll (a :: b :: rest) = _
            simp only [linkBelowAll, hgo, hall, Option.map_some']
          · simp only [List.map_cons]
            rw [hv']
            rfl
          · simp only [List.map_cons]
            rw [hk, hk']
            rfl
          · simp only [List.map_cons]
            rw [hi, hi']
            rfl
          · cases ls' with
            | nil => simp at hv'
            | cons b' rest' =>
                refine ⟨?_, hch'⟩
                have hkb : keysOf b'.nodes = keysOf b.nodes := by
                  simp only [List.map_cons, List.cons.injEq] at hk'
                  exact hk'.1
                have hib : idsOf b'.nodes = idsOf b.nodes := by
                  simp only [List.map_cons, List.cons.injEq] at hi'
                  exact hi'.1
                exact towered_congr_lower hkb hib htow

theorem chainP_mono_mem {β : Type} {R S : β → β → Prop} :
    ∀ {l : List β}, (∀ a ∈ l, ∀ b ∈ l, R a b → S a b) →
      chainP R l → chainP S l := by
  intro l
  induction l with
  | nil => intro _ _; trivial
  | cons a rest ih =>
      cases rest with
      | nil => intro _ _; trivial
      | cons b tl =>
          intro himp h
          refine ⟨himp a (by simp) b (by simp) h.1, ?_⟩
          exact ih (fun x hx y hy => himp x (List.mem_cons_of_mem a hx)
            y (List.mem_cons_of_mem a hy)) h.2

theorem chainP_of_map_eq {β γ : Type} (f : β → γ) (R : γ → γ → Prop) :
    ∀ {l₁ l₂ : List β}, l₁.map f = l₂.map f →
      chainP (fun a b => R (f a) (f b)) l₂ →
      chainP (fun a b => R (f a) (f b)) l₁ := by
  intro l₁
  induction l₁ with
  | nil => intro l₂ _ _; trivial
  | cons a as ih =>
      intro l₂ hm hc
      cases l₂ with
      | nil => simp at hm
      | cons b bs =>
          simp only [List.map_cons, List.cons.injEq] at hm
          cases as with
          | nil => trivial
          | cons a₂ as₂ =>
              cases bs with
              | nil => simp at hm
              | cons b₂ bs₂ =>
                  have h2 : f a₂ = f b₂ := by
                    have h3 := hm.2
                    simp only [List.map_cons, List.cons.injEq] at h3
                    exact h3.1
                  refine ⟨?_, ih hm.2 hc.2⟩
                  show R (f a) (f a₂)
                  rw [hm.1, h2]
                  exact hc.1

theorem copyLevels_length : ∀ (fr : Nat) (g : List (Level α)),
    (copyLevels fr g).length = g.length := by
  intro fr g
  induction g generalizing fr with
  | nil => rfl
  | cons p ps ih => simp [copyLevels, ih]

theorem copyLevels_level_facts {g : List (Level α)}
    (hwfl : ∀ lv ∈ g, wfNodes lv.nodes) (fr : Nat) :
    ∀ lv ∈ copyLevels fr g, lv.nodes ≠ [] ∧
      (keysOf lv.nodes).Pairwise (fun a b => keyLt a b = true) ∧
      lv.nodes.getLast?.map (·.value) = some (.posInf) := by
  intro lv hm
  obtain ⟨orig, ho, off, he⟩ := copyLevels_mem hm
  have hwf := hwfl orig ho
  subst he
  refine ⟨?_, ?_, ?_⟩
  · intro h
    rw [show ((⟨orig.value, renumber off orig.nodes⟩ : Level α)).nodes
        = renumber off orig.nodes from rfl, renumber_eq_nil] at h
    rw [h] at hwf
    simpa using hwf.1
  · show (keysOf (renumber off orig.nodes)).Pairwise _
    rw [renumber_keys]
    exact (List.pairwise_map).mpr (wfNodes_pairwise hwf)
  · show (renumber off orig.nodes).getLast?.map (·.value) = _
    rw [← keysOf_getLast?, renumber_keys, keysOf_getLast?]
    exact hwf.2.1

theorem grid_chain_sublist {g : List (Level α)} (hwf : gridWF g) :
    chainP (fun a b => (keysOf a.nodes).Sublist (keysOf b.nodes)) g := by
  obtain ⟨_, _, hwfl, htow, _⟩ := hwf
  refine chainP_mono_mem ?_ htow
  intro a ha b hb hT
  exact sublist_of_sorted_subset (keysOf b.nodes) (keysOf a.nodes)
    ((List.pairwise_map).mpr (wfNodes_pairwise (hwfl a ha)))
    ((List.pairwise_map).mpr (wfNodes_pairwise (hwfl b hb)))
    (fun k hk => tower_step hT hk)

theorem copyLevels_chain_sublist {g : List (Level α)} (hwf : gridWF g)
    (fr : Nat) :
    chainP (fun a b => (keysOf a.nodes).Sublist (keysOf b.nodes))
      (copyLevels fr g) :=
  chainP_of_map_eq (fun (lv : Level α) => keysOf lv.nodes)
    (fun x y => x.Sublist y)
    (copyLevels_keys fr g) (grid_chain_sublist hwf)

theorem copyGridA_none_spec {g : List (Level α)} (hwf : gridWF g) :
    ∃ ls, copyGridA g none = some (.ok (ls, totalNodes g)) ∧
      ls.map (·.value) = g.map (·.value) ∧
      ls.map (fun lv => keysOf lv.nodes)
        = g.map (fun lv => keysOf lv.nodes) ∧
      gridWF ls ∧
      allIds ls = List.range' 0 (totalNodes g) := by
  have hcne : copyLevels 0 g ≠ [] := by
    cases g with
    | nil => exact absurd rfl hwf.1
    | cons p ps => simp [copyLevels]
  obtain ⟨ls, hall, hv, hk, hi, hch⟩ :=
    linkBelowAll_spec (copyLevels 0 g) hcne
      (copyLevels_level_facts hwf.2.2.1 0)
      (copyLevels_chain_sublist hwf 0)
  have hvg : ls.map (·.value) = g.map (·.value) := by
    rw [hv, copyLevels_values]
  have hkg : ls.map (fun lv => keysOf lv.nodes)
      = g.map (fun lv => keysOf lv.nodes) := by
    rw [hk, copyLevels_keys]
  have hids : allIds ls = List.range' 0 (totalNodes g) := by
    show (ls.map (fun lv => idsOf lv.nodes)).flatten = _
    rw [hi]
    rw [show ((copyLevels 0 g).map (fun lv => idsOf lv.nodes)).flatten
        = allIds (copyLevels 0 g) from rfl]
    exact copyLevels_allIds 0 g
  refine ⟨ls, ?_, hvg, hkg, ?_, hids⟩
  · simp only [copyGridA, linkLevelsA_none, linkNextA_none,
      zip_renumber_eq_copyLevels, hall, renumberAll_snd]
    norm_num
  · obtain ⟨hne, hnum, hwfl, htow, hndup⟩ := hwf
    have hlen : ls.length = g.length := by
      have h1 := congrArg List.length hvg
      simpa using h1
    refine ⟨?_, ?_, ?_, hch, ?_⟩
    · intro h
      rw [h] at hlen
      cases g with
      | nil => exact hne rfl
      | cons p ps => simp at hlen
    · show wfNums ls
      unfold wfNums
      rw [hvg, hlen]
      exact hnum
    · intro lv hm
      obtain ⟨lv₂, hm₂, hkeq, hieq⟩ := mem_of_map_eq₂ hk hi lv hm
      have hkeq' : keysOf lv.nodes = keysOf lv₂.nodes := hkeq
      have hieq' : idsOf lv.nodes = idsOf lv₂.nodes := hieq
      obtain ⟨orig, ho, off, he⟩ := copyLevels_mem hm₂
      refine wfNodes_of_keys (b := orig.nodes) ?_ ?_ (hwfl orig ho)
      · rw [hkeq', he]
        exact renumber_keys off orig.nodes
      · rw [hieq', he]
        show (idsOf (renumber off orig.nodes)).Nodup
        rw [renumber_ids]
        exact List.nodup_range' _ _
    · rw [hids]
      exact List.nodup_range' _ _

theorem getLevel_shape :
    ∀ {g' g : List (Level α)},
      g'.map (·.value) = g.map (·.value) →
      g'.map (fun lv => keysOf lv.nodes) = g.map (fun lv => keysOf lv.nodes) →
      ∀ L, (getLevel g' L).map (fun lv => keysOf lv.nodes)
        = (getLevel g L).map (fun lv => keysOf lv.nodes) := by
  intro g'
  induction g' with
  | nil =>
      intro g hv _ L
      cases g with
      | nil => rfl
      | cons b bs => simp at hv
  | cons a as ih =>
      intro g hv hk L
      cases g with
      | nil => simp at hv
      | cons b bs =>
          simp only [List.map_cons, List.cons.injEq] at hv hk
          by_cases hL : a.value = L
          · rw [getLevel_cons_self hL,
              getLevel_cons_self (by rw [← hv.1]; exact hL)]
            simp only [Option.map_some']
            rw [hk.1]
          · rw [getLevel_cons_ne hL,
              getLevel_cons_ne (by rw [← hv.1]; exact hL)]
            exact ih hv.2 hk.2 L

theorem nodesAt_keys_shape {g' g : List (Level α)}
    (hv : g'.map (·.value) = g.map (·.value))
    (hk : g'.map (fun lv => keysOf lv.nodes)
      = g.map (fun lv => keysOf lv.nodes)) (L : Nat) :
    keysOf (nodesAt g' L) = keysOf (nodesAt g L) := by
  have h := getLevel_shape hv hk L
  unfold nodesAt
  cases h1 : getLevel g' L with
  | none =>
      cases h2 : getLevel g L with
      | none => rfl
      | some lv₂ => rw [h1, h2] at h; cases h
  | some lv₁ =>
      cases h2 : getLevel g L with
      | none => rw [h1, h2] at h; cases h
      | some lv₂ =>
          rw [h1, h2] at h
          simp only [Option.map_some'] at h
          injection h

theorem any_keys_congr {ns : List (Node α)} (p : SkipListKey α → Bool) :
    ∀ (ms : List (Node α)), keysOf ns = keysOf ms →
    ns.any (fun n => p n.value) = ms.any (fun n => p n.value) := by
  induction ns with
  | nil =>
      intro ms h
      cases ms with
      | nil => rfl
      | cons b bs => simp [keysOf] at h
  | cons a as ih =>
      intro ms h
      cases ms with
      | nil => simp [keysOf] at h
      | cons b bs =>
          simp only [keysOf, List.map_cons, List.cons.injEq] at h
          simp only [List.any_cons, h.1, ih bs h.2]

theorem headValue_shape {g' g : List (Level α)}
    (hv : g'.map (·.value) = g.map (·.value)) :
    headValue g' = headValue g := by
  cases g' with
  | nil =>
      cases g with
      | nil => rfl
      | cons b bs => simp at hv
  | cons a as =>
      cases g with
      | nil => simp at hv
      | cons b bs =>
          simp only [List.map_cons, List.cons.injEq] at hv
          show a.value = b.value
          exact hv.1

theorem elementsOnLevelG_shape {g' g : List (Level α)}
    (hv : g'.map (·.value) = g.map (·.value))
    (hk : g'.map (fun lv => keysOf lv.nodes)
      = g.map (fun lv => keysOf lv.nodes)) (L : Nat) :
    elementsOnLevelG g' L = elementsOnLevelG g L := by
  have h := getLevel_shape hv hk L
  unfold elementsOnLevelG
  cases h1 : getLevel g' L with
  | none =>
      cases h2 : getLevel g L with
      | none => rfl
      | some lv₂ => rw [h1, h2] at h; cases h
  | some lv₁ =>
      cases h2 : getLevel g L with
      | none => rw [h1, h2] at h; cases h
      | some lv₂ =>
          rw [h1, h2] at h
          simp only [Option.map_some'] at h
          injection h with h
          have hlen : lv₁.nodes.length = lv₂.nodes.length := by
            have := congrArg List.length h
            simpa [keysOf] using this
          show ((lv₁.nodes.length : Int) - 2) = ((lv₂.nodes.length : Int) - 2)
          rw [hlen]

theorem isElementOnLevelG_shape {g' g : List (Level α)}
    (hv : g'.map (·.value) = g.map (·.value))
    (hk : g'.map (fun lv => keysOf lv.nodes)
      = g.map (fun lv => keysOf lv.nodes)) (e : α) (L : Nat) :
    isElementOnLevelG g' e L = isElementOnLevelG g e L := by
  have h := getLevel_shape hv hk L
  unfold isElementOnLevelG
  cases h1 : getLevel g' L with
  | none =>
      cases h2 : getLevel g L with
      | none => rfl
      | some lv₂ => rw [h1, h2] at h; cases h
  | some lv₁ =>
      cases h2 : getLevel g L with
      | none => rw [h1, h2] at h; cases h
      | some lv₂ =>
          rw [h1, h2] at h
          simp only [Option.map_some'] at h
          injection h with h
          show lv₁.nodes.any (fun n => keyEq (.normal e) n.value)
            = lv₂.nodes.any (fun n => keyEq ( .normal e) n.value)
          exact any_keys_congr (fun k => keyEq (.normal e) k) lv₂.nodes h

theorem updateTail_tailTarget {ls : List (Level α)} (hwf : gridWF ls)
    (s : SkipListSet α) (hs : s.head = some ls) :
    updateTail s = { s with tail := tailTarget ls } := by
  obtain ⟨hne, _, hwfl, _, _⟩ := hwf
  cases ls with
  | nil => exact absurd rfl hne
  | cons top rest =>
      have htn : top.nodes ≠ [] := by
        have h1 := (hwfl top (by simp)).1
        intro h
        rw [h] at h1
        simpa using h1
      have htt : tailTarget (top :: rest) = top.nodes.getLast?.map (·.id) := rfl
      simp only [updateTail, hs]
      cases hgl : top.nodes.getLast? with
      | none =>
          exfalso
          have h2 := List.getLast?_isSome.mpr htn
          rw [hgl] at h2
          cases h2
      | some n =>
          rw [htt, hgl]
          rfl

theorem shape_eq_of_maps :
    ∀ {g' g : List (Level α)},
      g'.map (·.value) = g.map (·.value) →
      g'.map (fun lv => keysOf lv.nodes) = g.map (fun lv => keysOf lv.nodes) →
      shape g' = shape g := by
  intro g'
  induction g' with
  | nil =>
      intro g hv _
      cases g with
      | nil => rfl
      | cons b bs => simp at hv
  | cons a as ih =>
      intro g hv hk
      cases g with
      | nil => simp at hv
      | cons b bs =>
          simp only [List.map_cons, List.cons.injEq] at hv hk
          show (a.value, keysOf a.nodes) :: shape as
            = (b.value, keysOf b.nodes) :: shape bs
          rw [hv.1, hk.1, ih hv.2 hk.2]

theorem copied_state_inv {s : SkipListSet α} {g ls : List (Level α)}
    (hInv : Inv s) (hg : s.head = some g)
    (hwfls : gridWF ls)
    (hv : ls.map (·.value) = g.map (·.value))
    (hk : ls.map (fun lv => keysOf lv.nodes)
      = g.map (fun lv => keysOf lv.nodes))
    (hids : allIds ls = List.range' 0 (totalNodes g))
    (tl0 : Option Nat) :
    updateTail { head := some ls
                 tail := tl0
                 elements := s.elements
                 fresh := totalNodes g }
      = copiedState s g ls ∧
    Inv (copiedState s g ls) := by
  constructor
  · exact updateTail_tailTarget hwfls
      { head := some ls
        tail := tl0
        elements := s.elements
        fresh := totalNodes g } rfl
  · refine ⟨ls, rfl, hwfls, ?_, ?_, rfl⟩
    · intro i hi
      rw [hids] at hi
      have h2 := (List.mem_range'_1).mp hi
      show i < totalNodes g
      omega
    · obtain ⟨g₀, hg₀, _, _, hel, _⟩ := hInv
      rw [hg] at hg₀
      injection hg₀ with hg₀
      subst hg₀
      show s.elements = ((normalsOf (nodesAt ls 0)).length : Int)
      rw [hel]
      congr 2
      rw [normalsOf_keys, normalsOf_keys, nodesAt_keys_shape hv hk 0]

theorem copyS_spec {s : SkipListSet α} (hInv : Inv s) :
    ∃ g ls, s.head = some g ∧
      copyS s = some (copiedState s g ls) ∧
      Inv (copiedState s g ls) ∧
      ls.map (·.value) = g.map (·.value) ∧
      ls.map (fun lv => keysOf lv.nodes)
        = g.map (fun lv => keysOf lv.nodes) := by
  have hInv2 := hInv
  obtain ⟨g, hg, hwf, _⟩ := hInv2
  obtain ⟨ls, hcg, hv, hk, hwfls, hids⟩ := copyGridA_none_spec hwf
  obtain ⟨hupd, hinv'⟩ := copied_state_inv hInv hg hwfls hv hk hids none
  refine ⟨g, ls, hg, ?_, hinv', hv, hk⟩
  simp only [copyS, copyCtorA, hg, hcg, hupd]

/-- C1: the claim says adding an element already in the set is a no-op; in
the code, `search` returns the null pointer for a present element and `add`
immediately dereferences it (`current->next`, line 413), which is undefined
behaviour — shown at the failing input: a fresh set receives 5, 5 is indeed
contained, and the second `add(5)` crashes instead of doing nothing. -/
theorem claim1_duplicate_add_is_undefined :
    runTrace ([(5, [])] : List (Int × List Bool)) = some exOne ∧
    contains exOne 5 = some true ∧
    add exOne 5 [] = none ∧
    runTrace ([(5, []), (5, [])] : List (Int × List Bool)) = none := by
  decide

/-- C2 counterexample: the claim quantifies over every sequence of added
elements, but for the sequence 5, 5 the second `add` dereferences a null
pointer, so no post-state exists in which `contains 5` could answer true. -/
theorem claim2_counterexample :
    ¬ ∃ s : SkipListSet Int,
      runTrace [(5, []), (5, [])] = some s ∧ contains s 5 = some true := by
  rintro ⟨s, hs, -⟩
  have h0 : runTrace ([(5, []), (5, [])] : List (Int × List Bool)) = none := by
    decide
  rw [h0] at hs
  cases hs

/-- C2 (amended): for every sequence of pairwise-distinct elements added to
a fresh set, every `add` succeeds and `contains e` then answers exactly
whether `e` was among the added elements (`contains` is a pure function of
the state in this embedding, so it cannot mutate the structure). -/
theorem claim2_contains_correct (t : List (α × List Bool))
    (hnd : (t.map Prod.fst).Nodup) :
    ∃ s, runTrace t = some s ∧
      ∀ e : α, contains s e = some (decide (e ∈ t.map Prod.fst)) := by
  have hfresh0 : ∀ x ∈ t.map Prod.fst,
      SkipListKey.normal x ∉ keysOf (nodesAt
        ([⟨0, [⟨0, .negInf, none⟩, ⟨1, .posInf, none⟩]⟩] : List (Level α)) 0) := by
    intro x _ hmem
    rw [keysAtZero_mk] at hmem
    simp at hmem
  obtain ⟨s, g', hrun, hg', hinv', hiff⟩ :=
    runFrom_distinct t mkSkipListSet _ mkSkipListSet_inv rfl hfresh0 hnd
  refine ⟨s, hrun, ?_⟩
  intro e
  rw [contains_iff hinv' hg' e]
  congr 1
  rw [decide_eq_decide]
  rw [hiff (SkipListKey.normal e), keysAtZero_mk]
  constructor
  · intro h
    rcases h with h | h
    · obtain ⟨p, hp, hpe⟩ := List.mem_map.mp h
      have : p.1 = e := by injection hpe
      exact List.mem_map.mpr ⟨p, hp, this⟩
    · simp at h
  · intro h
    obtain ⟨p, hp, hpe⟩ := List.mem_map.mp h
    exact Or.inl (List.mem_map.mpr ⟨p, hp, by rw [hpe]⟩)

/-- Witness for the amended C2 at a concrete distinct trace. -/
theorem claim2_contains_correct_witness :
    (([(5, [true]), (1, []), (3, [])] : List (Int × List Bool)).map
      Prod.fst).Nodup ∧
    ∃ s, runTrace ([(5, [true]), (1, []), (3, [])] : List (Int × List Bool))
        = some s ∧
      ∀ e : Int, contains s e = some (decide (e ∈
        ([(5, [true]), (1, []), (3, [])] : List (Int × List Bool)).map
          Prod.fst)) :=
  ⟨by decide, claim2_contains_correct _ (by decide)⟩

/-- C3 counterexample: in the state holding the single element 5, a node
with key 5 exists at level 0, yet `search(5, 0)` returns the null pointer
(`none`) — the found case does not yield the matching node, and null is the
very channel that also signals other loop exits, contrary to the claim. -/
theorem claim3_counterexample :
    (∃ n ∈ nodesAt
        ([⟨0, [⟨0, .negInf, none⟩, ⟨2, .normal 5, none⟩, ⟨1, .posInf, none⟩]⟩]
          : List (Level Int)) 0,
      n.value = SkipListKey.normal 5) ∧
    search ([⟨0, [⟨0, .negInf, none⟩, ⟨2, .normal 5, none⟩, ⟨1, .posInf, none⟩]⟩]
      : List (Level Int)) 5 0 = none := by
  decide

/-- C3 (amended): the two outcomes of `search` are distinguished by nullness
of the single returned pointer: for a well-formed grid and a valid
`minLevel`, the result is null exactly when the element occurs at the
requested level (the found case carries no node), and otherwise it is the
rightmost node at that level whose key is below the element — the correct
insertion predecessor. -/
theorem claim3_search_contract {g : List (Level α)} {e : α} {m : Nat}
    (hwf : gridWF g) (hm : m < g.length) :
    (SkipListKey.normal e ∈ keysOf (nodesAt g m) →
      search g e (m : Int) = none) ∧
    (SkipListKey.normal e ∉ keysOf (nodesAt g m) →
      ∃ preT r nxt tlT, nodesAt g m = preT ++ r :: nxt :: tlT ∧
        search g e (m : Int) = some r.id ∧
        keyLt r.value (SkipListKey.normal e) = true ∧
        keyLt (SkipListKey.normal e) nxt.value = true) :=
  ⟨fun h => search_found hwf hm h, fun h => search_insertion_point hwf hm h⟩

/-- Witness for the amended C3 on a concrete two-level grid. -/
theorem claim3_search_contract_witness :
    ∃ g : List (Level Int), exThree.head = some g ∧ gridWF g ∧ 0 < g.length ∧
      ((SkipListKey.normal 3 ∈ keysOf (nodesAt g 0) →
        search g 3 ((0 : Nat) : Int) = none) ∧
      (SkipListKey.normal 3 ∉ keysOf (nodesAt g 0) →
        ∃ preT r nxt tlT, nodesAt g 0 = preT ++ r :: nxt :: tlT ∧
          search g 3 ((0 : Nat) : Int) = some r.id ∧
          keyLt r.value (SkipListKey.normal 3) = true ∧
          keyLt (SkipListKey.normal 3) nxt.value = true)) :=
  ⟨_, rfl, by decide, by decide,
    claim3_search_contract (by decide) (by decide)⟩

/-- C5: in every state reachable by a sequence of `add` calls on a freshly
constructed set, every level's chain runs from the `NegInf` sentinel to the
`PosInf` sentinel with strictly increasing keys (`wfNodes`), and every node
of a level above the bottom carries, through its `below` pointer, an
equal-keyed node of the level directly beneath — sentinels towering onto
sentinels included (`towered` over adjacent levels). -/
theorem claim5_invariants (t : List (α × List Bool)) (s : SkipListSet α)
    (h : runTrace t = some s) :
    ∃ g, s.head = some g ∧ (∀ lv ∈ g, wfNodes lv.nodes) ∧
      chainP (fun a b => towered a.nodes b.nodes) g := by
  obtain ⟨g, hg, hwf, _⟩ := runFrom_inv t mkSkipListSet s mkSkipListSet_inv h
  exact ⟨g, hg, hwf.2.2.1, hwf.2.2.2.1⟩

/-- Witness for C5 on the scenario-B trace. -/
theorem claim5_invariants_witness :
    runTrace ([(5, [true]), (1, [true]), (3, [true])]
      : List (Int × List Bool)) = some exThree ∧
    ∃ g, exThree.head = some g ∧ (∀ lv ∈ g, wfNodes lv.nodes) ∧
      chainP (fun a b => towered a.nodes b.nodes) g :=
  ⟨by decide, claim5_invariants
    ([(5, [true]), (1, [true]), (3, [true])] : List (Int × List Bool))
    exThree (by decide)⟩

/-- C6: with the level tester answering true exactly once per element
(answer list `[true]` for each `add`), inserting 5, 1, 3 into a fresh set
yields two levels and each element sits on level 1 and on level 0 — the
spec's concrete scenario B. -/
theorem claim6_scenarioB :
    ∃ s : SkipListSet Int,
      runTrace [((5 : Int), [true]), (1, [true]), (3, [true])] = some s ∧
      levelCount s = some 2 ∧
      (∀ e ∈ [(5 : Int), 1, 3],
        isElementOnLevel s e 1 = some true ∧
        isElementOnLevel s e 0 = some true) := by
  refine ⟨exThree, by decide, by decide, by decide⟩

/-- C8 counterexample: after moving from the one-element state holding 7,
the moved-from source does not behave like an empty set: its `size()` still
reports 1 (the `elements` member is never reset) and `contains(7)`
dereferences the null `head` instead of returning false. -/
theorem claim8_counterexample :
    ¬ (size (moveCtor exSeven).2 = 0 ∧
       contains (moveCtor exSeven).2 7 = some false) := by
  decide

/-- C8 (amended): move construction and move assignment transfer ownership
of the grid (`head` and `tail`) to the destination and null the source's
pointers, leaving it safely destructible — but not a valid empty set: the
source's element counter keeps its old value, and every grid-reading
operation on the moved-from source dereferences a null head (undefined
behaviour, `none`).  Move assignment parks the target's old grid in the
source instead of nulling it. -/
theorem claim8_move_transfers (s t : SkipListSet α) :
    (moveCtor s).1.head = s.head ∧ (moveCtor s).1.tail = s.tail ∧
    (moveCtor s).1.elements = s.elements ∧
    (moveCtor s).2.head = none ∧ (moveCtor s).2.tail = none ∧
    (moveCtor s).2.elements = s.elements ∧
    (∀ e, contains (moveCtor s).2 e = none) ∧
    levelCount (moveCtor s).2 = none ∧
    (moveAssign t s).1.head = s.head ∧
    (moveAssign t s).1.elements = s.elements ∧
    (moveAssign t s).2.head = t.head ∧
    (moveAssign t s).2.elements = s.elements :=
  ⟨rfl, rfl, rfl, rfl, rfl, rfl, fun _ => rfl, rfl, rfl, rfl, rfl, rfl⟩

/-- C10: in every state reachable by `add` calls from a fresh set, every
node on a level above the bottom has a non-null `below` pointer, and for
every element and every valid `minLevel` the search loop never exits through
a null pointer (its outcome is either the found return or a predecessor
node) — so the descent never dereferences null. -/
theorem claim10_no_null_descent (t : List (α × List Bool)) (s : SkipListSet α)
    (h : runTrace t = some s) :
    ∃ g, s.head = some g ∧
      (∀ lv ∈ g, 0 < lv.value → ∀ n ∈ lv.nodes, n.below.isSome = true) ∧
      (∀ (e : α) (m : Nat), m < g.length →
        searchRes g e (m : Int) ≠ SearchResult.exitNull) := by
  obtain ⟨g, hg, hwf, _⟩ := runFrom_inv t mkSkipListSet s mkSkipListSet_inv h
  refine ⟨g, hg, ?_, ?_⟩
  · intro lv hlv hpos n hn
    obtain ⟨A, B, hAB⟩ := List.append_of_mem hlv
    have hnum : wfNums g := hwf.2.1
    have hBlen : B.length = lv.value :=
      (wfNums_split (by rw [← hAB]; exact hnum)).1.symm
    match B, hBlen with
    | [], hB => exact False.elim (by simp at hB; omega)
    | b :: B', _ =>
      have hchain : chainP (fun a b => towered a.nodes b.nodes) (lv :: b :: B') :=
        chainP_of_append_right (by rw [← hAB]; exact hwf.2.2.2.1)
      obtain ⟨mm, _, hb, _⟩ := hchain.1 n hn
      rw [hb]
      rfl
  · intro e m hm
    by_cases hmem : SkipListKey.normal e ∈ keysOf (nodesAt g m)
    · rw [(searchRes_spec hwf hm).1 hmem]
      intro hc
      cases hc
    · obtain ⟨_, _, _, _, _, hres, _, _⟩ := (searchRes_spec hwf hm).2 hmem
      rw [hres]
      intro hc
      cases hc

/-- C4 counterexample: adding 3 to the one-element state with one promotion
requested, and failing the allocation of the new top `LNode` (allocation
index 2, the first `new` of `createNewLevel`), lets the exception escape
with the level-0 splice and the incremented element count still in place —
the structure is not left exactly as it was before the call. -/
theorem claim4_counterexample :
    addA exOne 3 [true] (some 2) = some (.error
      ⟨some [⟨0, [⟨0, .negInf, none⟩, ⟨3, .normal 3, none⟩,
                  ⟨2, .normal 5, none⟩, ⟨1, .posInf, none⟩]⟩],
        some 1, 2, 4⟩) ∧
    (⟨some [⟨0, [⟨0, .negInf, none⟩, ⟨3, .normal 3, none⟩,
                 ⟨2, .normal 5, none⟩, ⟨1, .posInf, none⟩]⟩],
       some 1, 2, 4⟩ : SkipListSet Int) ≠ exOne ∧
    size (⟨some [⟨0, [⟨0, .negInf, none⟩, ⟨3, .normal 3, none⟩,
                      ⟨2, .normal 5, none⟩, ⟨1, .posInf, none⟩]⟩],
            some 1, 2, 4⟩ : SkipListSet Int) ≠ size exOne := by
  decide

/-- C4 (amended): an allocation failure during the level-0 splice
(allocation 0, the key copy, or allocation 1, the node) is caught by `add`,
the dangling node is discarded, and the exception is rethrown with the
structure exactly as it was before the call; failures later in the
promotion loop also propagate rather than being swallowed, but the
mutations already committed in that call — the level-0 splice, earlier
promotions and any partially built top level — are not unwound. -/
theorem claim4_splice_rollback {s : SkipListSet α} {g : List (Level α)}
    {e : α} (hg : s.head = some g) {pid : Nat}
    (hsearch : search g e 0 = some pid) (flips : List Bool) :
    addA s e flips (some 0) = some (.error s) ∧
    addA s e flips (some 1) = some (.error s) := by
  constructor <;> simp [addA, hg, hsearch]

/-- Witness for the amended C4 at a concrete state and element. -/
theorem claim4_splice_rollback_witness :
    exOne.head = some [⟨0, [⟨0, .negInf, none⟩, ⟨2, .normal 5, none⟩,
      ⟨1, .posInf, none⟩]⟩] ∧
    search ([⟨0, [⟨0, .negInf, none⟩, ⟨2, .normal 5, none⟩,
      ⟨1, .posInf, none⟩]⟩] : List (Level Int)) 3 0 = some 0 ∧
    (addA exOne 3 [true] (some 0) = some (.error exOne) ∧
     addA exOne 3 [true] (some 1) = some (.error exOne)) :=
  ⟨rfl, by decide, claim4_splice_rollback rfl
    (show search ([⟨0, [⟨0, .negInf, none⟩, ⟨2, .normal 5, none⟩,
      ⟨1, .posInf, none⟩]⟩] : List (Level Int)) 3 0 = some 0 by decide) [true]⟩

/-- Witness for C10 on the scenario-B trace. -/
theorem claim10_no_null_descent_witness :
    runTrace ([(5, [true]), (1, [true]), (3, [true])]
      : List (Int × List Bool)) = some exThree ∧
    ∃ g, exThree.head = some g ∧
      (∀ lv ∈ g, 0 < lv.value → ∀ n ∈ lv.nodes, n.below.isSome = true) ∧
      (∀ (e : Int) (m : Nat), m < g.length →
        searchRes g e (m : Int) ≠ SearchResult.exitNull) :=
  ⟨by decide, claim10_no_null_descent
    ([(5, [true]), (1, [true]), (3, [true])] : List (Int × List Bool))
    exThree (by decide)⟩

/-- C7: copy construction reproduces the source exactly — the copy satisfies
the state invariant, carries the same level numbers with the same key
sequence on every level (the exact tower shape, not a re-randomized rebuild),
and agrees with the source on `levelCount`, `elementsOnLevel` for every
level, `isElementOnLevel`, `contains` for every element, and `size`; adding
an element absent from the source to the copy succeeds and grows the copy's
size while the source — an immutable value whose nodes the pipeline never
shares, having allocated fresh ones — keeps its own. -/
theorem claim7_copy_fidelity {s : SkipListSet α} (hInv : Inv s) :
    ∃ s', copyS s = some s' ∧ Inv s' ∧
      (∃ g ls, s.head = some g ∧ s'.head = some ls ∧ shape ls = shape g) ∧
      levelCount s' = levelCount s ∧
      (∀ L, elementsOnLevel s' L = elementsOnLevel s L) ∧
      (∀ e L, isElementOnLevel s' e L = isElementOnLevel s e L) ∧
      (∀ e, contains s' e = contains s e) ∧
      size s' = size s ∧
      (∀ e flips, contains s e = some false →
        ∃ t, add s' e flips = some t ∧ size t = size s + 1) := by
  obtain ⟨g, ls, hg, hcopy, hinv', hv, hk⟩ := copyS_spec hInv
  refine ⟨copiedState s g ls, hcopy, hinv',
    ⟨g, ls, hg, rfl, shape_eq_of_maps hv hk⟩, ?_, ?_, ?_, ?_, rfl, ?_⟩
  · unfold levelCount
    rw [hg]
    show some (levelCountG ls) = some (levelCountG g)
    unfold levelCountG
    rw [headValue_shape hv]
  · intro L
    unfold elementsOnLevel
    rw [hg]
    show some (elementsOnLevelG ls L) = some (elementsOnLevelG g L)
    rw [elementsOnLevelG_shape hv hk L]
  · intro e L
    unfold isElementOnLevel
    rw [hg]
    show some (isElementOnLevelG ls e L) = some (isElementOnLevelG g e L)
    rw [isElementOnLevelG_shape hv hk e L]
  · intro e
    rw [contains_iff hinv' rfl e, contains_iff hInv hg e,
      nodesAt_keys_shape hv hk 0]
  · intro e flips hce
    have hnot : SkipListKey.normal e ∉ keysOf (nodesAt g 0) := by
      rw [contains_iff hInv hg e] at hce
      injection hce with hce
      exact of_decide_eq_false hce
    have hnot' : SkipListKey.normal e ∉ keysOf (nodesAt ls 0) := by
      rw [nodesAt_keys_shape hv hk 0]
      exact hnot
    obtain ⟨t, g', hadd, hgt, hinvt, hel, hiff⟩ := add_spec hinv' rfl hnot' flips
    refine ⟨t, hadd, ?_⟩
    show t.elements = s.elements + 1
    exact hel

/-- Witness for C7 at a concrete one-element state. -/
theorem claim7_copy_fidelity_witness :
    Inv exOne ∧
    (∃ s', copyS exOne = some s' ∧ Inv s' ∧
      (∃ g ls, exOne.head = some g ∧ s'.head = some ls ∧ shape ls = shape g) ∧
      levelCount s' = levelCount exOne ∧
      (∀ L, elementsOnLevel s' L = elementsOnLevel exOne L) ∧
      (∀ (e : Int) (L : Nat), isElementOnLevel s' e L
        = isElementOnLevel exOne e L) ∧
      (∀ e : Int, contains s' e = contains exOne e) ∧
      size s' = size exOne ∧
      (∀ (e : Int) (flips : List Bool), contains exOne e = some false →
        ∃ t, add s' e flips = some t ∧ size t = size exOne + 1)) :=
  have h : Inv exOne := ⟨_, rfl, by decide, by decide, by decide, by decide⟩
  ⟨h, claim7_copy_fidelity h⟩

/-- C9: the copy-assignment operator builds the complete replacement grid
into a local `temp` before `deleteSkipList(head)` runs, so an allocation
failure injected at any point hands the exception to the caller with the
target exactly as it was, while a successful assignment leaves the target
invariant-satisfying and observably equal to the source; instantiating the
target with the source itself gives the self-assignment case. -/
theorem claim9_copy_assign {s : SkipListSet α} (hInv : Inv s)
    (t : SkipListSet α) :
    (∀ k t', assignA t s (some k) = some (.error t') → t' = t) ∧
    (∃ t', assignA t s none = some (.ok t') ∧ Inv t' ∧
      size t' = size s ∧
      levelCount t' = levelCount s ∧
      (∀ L, elementsOnLevel t' L = elementsOnLevel s L) ∧
      (∀ e, contains t' e = contains s e)) := by
  have hInv2 := hInv
  obtain ⟨g, hg, hwf, _⟩ := hInv2
  constructor
  · intro k t' h
    simp only [assignA, hg] at h
    cases hcg : copyGridA g (some k) with
    | none =>
        rw [hcg] at h
        simp at h
    | some ex =>
        cases ex with
        | error u =>
            rw [hcg] at h
            simp only [Option.some.injEq] at h
            injection h with h
            exact h.symm
        | ok pr =>
            rw [hcg] at h
            simp at h
  · obtain ⟨ls, hcg, hv, hk, hwfls, hids⟩ := copyGridA_none_spec hwf
    obtain ⟨hupd, hinv'⟩ := copied_state_inv hInv hg hwfls hv hk hids t.tail
    refine ⟨copiedState s g ls, ?_, hinv', rfl, ?_, ?_, ?_⟩
    · simp only [assignA, hg, hcg, hupd]
    · unfold levelCount
      rw [hg]
      show some (levelCountG ls) = some (levelCountG g)
      unfold levelCountG
      rw [headValue_shape hv]
    · intro L
      unfold elementsOnLevel
      rw [hg]
      show some (elementsOnLevelG ls L) = some (elementsOnLevelG g L)
      rw [elementsOnLevelG_shape hv hk L]
    · intro e
      rw [contains_iff hinv' rfl e, contains_iff hInv hg e,
        nodesAt_keys_shape hv hk 0]

/-- Witness for C9: assigning a one-element set over an unrelated target. -/
theorem claim9_copy_assign_witness :
    Inv exOne ∧
    ((∀ k t', assignA exSeven exOne (some k) = some (.error t') →
        t' = exSeven) ∧
     (∃ t', assignA exSeven exOne none = some (.ok t') ∧ Inv t' ∧
       size t' = size exOne ∧
       levelCount t' = levelCount exOne ∧
       (∀ L, elementsOnLevel t' L = elementsOnLevel exOne L) ∧
       (∀ e : Int, contains t' e = contains exOne e))) :=
  have h : Inv exOne := ⟨_, rfl, by decide, by decide, by decide, by decide⟩
  ⟨h, claim9_copy_assign h exSeven⟩

end SkipListModel

